import Mathlib

/-!
Verification of the task-scheduling core of the EduHub backend
(`backend/ml_models.py`): the heuristic priority scorer
(`TaskPrioritizer.calculate_priority_score`, `apply_fuzzy_logic`,
`map_score_to_priority`, `heuristic_priority`) and the genetic scheduler
(`TaskSchedulerGA.optimize` with `_fitness`, `_crossover`, `_mutate`,
`_tournament_select`, `_days_until_deadline`, `_mood_bonus`).

Python dynamic values are modelled by `PyVal`, dicts by association lists,
exceptions by `Except PyErr`, floats by `ℚ`, and the process-global
`random` module by an abstract random source `RNG` together with the
well-formedness predicate `RWF` that states exactly what Python's
`random.random` / `random.sample` / `random.shuffle` guarantee.
The wall clock and `datetime` parsing are abstracted by `DtEnv`.
-/

/-- A Python runtime value, restricted to the shapes the scheduling core
touches: `None`, ints, floats, strings and (opaque) `datetime` objects. -/
inductive PyVal where
  | vnone
  | vint (n : Int)
  | vfloat (q : ℚ)
  | vstr (s : String)
  | vdt (d : Nat)
deriving DecidableEq, Repr

open PyVal

/-- A Python exception class (only the classes this code can raise). -/
inductive PyErr where
  | valueError
  | typeError
  | attributeError
  | indexError
  | keyError
deriving DecidableEq, Repr

/-- A Python dict with string keys, as an association list in insertion
order (keys are unique in every dict the program builds). -/
abbrev PyDict : Type := List (String × PyVal)

/-- `d.get(k)` (`None`-free variant: `none` means the key is absent). -/
def dictGet (d : PyDict) (k : String) : Option PyVal :=
  (List.find? (fun kv => kv.1 = k) d).map (fun kv => kv.2)

/-- `d[k] = v`: replace in place if the key exists, else append. -/
def dictSet (d : PyDict) (k : String) (v : PyVal) : PyDict :=
  if List.any d (fun kv => kv.1 = k) then
    List.map (fun kv => if kv.1 = k then (k, v) else kv) d
  else d ++ [(k, v)]

/-- `d.pop(k, None)`: the dict with the key removed. -/
def dictPop (d : PyDict) (k : String) : PyDict :=
  List.filter (fun kv => ¬ kv.1 = k) d

/-- Python truthiness of a value. -/
def truthy : PyVal → Bool
  | vnone => false
  | vint n => n ≠ 0
  | vfloat q => q ≠ 0
  | vstr s => s ≠ ""
  | vdt _ => true

/-- Digit-string accumulator for `int(...)` on strings. -/
def parseNatAux : List Char → Nat → Option Nat
  | [], acc => some acc
  | c :: rest, acc =>
    if c.isDigit then parseNatAux rest (acc * 10 + (c.toNat - 48)) else none

/-- Python `int(s)` on a string: an optionally signed decimal literal
(canonical integer literals; other strings raise `ValueError`). -/
def pyParseInt (s : String) : Option Int :=
  match s.data with
  | [] => none
  | '-' :: rest =>
    if rest.isEmpty then none else (parseNatAux rest 0).map (fun n => -(n : Int))
  | '+' :: rest =>
    if rest.isEmpty then none else (parseNatAux rest 0).map (fun n => (n : Int))
  | l => (parseNatAux l 0).map (fun n => (n : Int))

/-- Python `int(v)`: ints pass through, floats truncate toward zero,
numeric strings parse, anything else raises. -/
def pyInt : PyVal → Except PyErr Int
  | vint n => .ok n
  | vfloat q => .ok (Int.tdiv q.num q.den)
  | vstr s => match pyParseInt s with
      | some n => .ok n
      | none => .error .valueError
  | vnone => .error .typeError
  | vdt _ => .error .typeError

/-- `s.lower()` on an actual string. -/
def lowerString (s : String) : String := String.mk (s.data.map Char.toLower)

/-- Python `v.lower()`: defined on strings only, otherwise
`AttributeError`. -/
def pyLower : PyVal → Except PyErr String
  | vstr s => .ok (lowerString s)
  | _ => .error .attributeError

/-- The clock / `datetime` environment: `parseDelta v` is the value of
`(deadline_dt - datetime.now(timezone.utc)).days` for a truthy deadline
value `v`, or `none` when parsing or the subtraction raises (the code
catches that). `isoStr` and `reprOf` abstract `datetime.isoformat` and
`str(...)` on non-trivial values. -/
structure DtEnv where
  parseDelta : PyVal → Option Int
  isoStr : Nat → String
  floatRepr : ℚ → String
  dtRepr : Nat → String

/-- Python `str(v)`. -/
def pyStr (env : DtEnv) : PyVal → String
  | vstr s => s
  | vint n => toString n
  | vnone => "None"
  | vfloat q => env.floatRepr q
  | vdt d => env.dtRepr d

/-- The `TaskPrioritizer` heuristic configuration: `heuristic_weights`
and `heuristic_thresholds` with their constructor defaults. -/
structure PrioritizerCfg where
  wUrgency : ℚ := 5
  wDays : ℚ := -2
  wDifficulty : ℚ := 1
  thHigh : ℚ := 18
  thMedium : ℚ := 10

/-- `{'easy': 1, 'medium': 2, 'hard': 3}.get(difficulty, 2)`. -/
def difficultyMapGet : PyVal → Int
  | vstr "easy" => 1
  | vstr "medium" => 2
  | vstr "hard" => 3
  | _ => 2

/-- `TaskPrioritizer.apply_fuzzy_logic`: fuzzy mood/difficulty score
adjustment.  The context argument is a dict; the empty dict stands for
both Python `None` and `{}` (both falsy, observed only via truthiness
and `.get`). -/
def apply_fuzzy_logic (cfg : PrioritizerCfg) (score : ℚ) (task ctx : PyDict) :
    Except PyErr ℚ :=
  if ctx.isEmpty then .ok score
  else do
    let mv := (dictGet ctx "mood").getD vnone
    let mood ← pyLower (if truthy mv then mv else vstr "")
    let difficulty ← pyLower ((dictGet task "difficulty").getD (vstr "medium"))
    let score := if (mood = "okay" ∨ mood = "focused") ∧ difficulty = "medium" then
        max score cfg.thHigh else score
    let score := if (mood = "sad" ∨ mood = "very_sad" ∨ mood = "tired") ∧ difficulty = "hard" then
        score - 4 else score
    .ok score

/-- `TaskPrioritizer.calculate_priority_score`: weighted heuristic score
with defensive deadline handling, then fuzzy adjustment. -/
def calculate_priority_score (cfg : PrioritizerCfg) (env : DtEnv)
    (task ctx : PyDict) : Except PyErr ℚ := do
  let urgencyRaw ← pyInt ((dictGet task "urgency").getD (vint 3))
  let urgencyScore : Int := 6 - max 1 (min 5 urgencyRaw)
  let d := (dictGet task "deadline").getD vnone
  let daysRemaining : Int :=
    if truthy d then
      match env.parseDelta d with
      | some delta => max (-7) (min 21 delta)
      | none => 7
    else 7
  let difficultyScore : Int := difficultyMapGet ((dictGet task "difficulty").getD (vstr "medium"))
  let score : ℚ := cfg.wUrgency * urgencyScore + cfg.wDays * daysRemaining +
    cfg.wDifficulty * difficultyScore
  apply_fuzzy_logic cfg score task ctx

/-- `TaskPrioritizer.map_score_to_priority`. -/
def map_score_to_priority (cfg : PrioritizerCfg) (score : ℚ) : String :=
  if cfg.thHigh ≤ score then "high"
  else if cfg.thMedium ≤ score then "medium"
  else "low"

/-- `TaskPrioritizer.heuristic_priority`: `(label, score)`. -/
def heuristic_priority (cfg : PrioritizerCfg) (env : DtEnv) (task ctx : PyDict) :
    Except PyErr (String × ℚ) := do
  let score ← calculate_priority_score cfg env task ctx
  .ok (map_score_to_priority cfg score, score)

/-- One entry of `base_metrics` in `TaskSchedulerGA.optimize`. -/
structure BaseMetric where
  index : Nat
  label : String
  score : ℚ
  weight : Int
deriving DecidableEq, Repr

/-- `{"high": 3, "medium": 2, "low": 1}[label]` (raises on other keys). -/
def priorityWeight : String → Except PyErr Int
  | "high" => .ok 3
  | "medium" => .ok 2
  | "low" => .ok 1
  | _ => .error .keyError

/-- `TaskSchedulerGA` constructor configuration. -/
structure GAConfig where
  populationSize : Nat := 60
  generations : Nat := 60
  crossoverRate : ℚ := 3 / 4
  mutationRate : ℚ := 3 / 20
  pcfg : PrioritizerCfg := {}

/-- Abstract random source standing for Python's process-global `random`
module: `random` is `random.random()`, `randomSample g n k` is
`random.sample(range(n), k)` (`none` when it raises `ValueError`),
`shuffle` is `random.shuffle` on a copy, and `sampleScored g pool k` is
`random.sample(pool, k)` on a scored-population list. -/
structure RNG (σ : Type) where
  random : σ → ℚ × σ
  randomSample : σ → Nat → Nat → Option (List Nat × σ)
  shuffle : σ → List Nat → List Nat × σ
  sampleScored : σ → List (ℚ × List Nat) → Nat → Option (List (ℚ × List Nat) × σ)

/-- What Python's `random` module guarantees of the operations used. -/
structure RWF {σ : Type} (R : RNG σ) : Prop where
  random_nonneg : ∀ g, 0 ≤ (R.random g).1
  random_lt_one : ∀ g, (R.random g).1 < 1
  sample_isSome : ∀ g n k, k ≤ n → (R.randomSample g n k).isSome
  sample_spec : ∀ g n k l g', R.randomSample g n k = some (l, g') →
    l.length = k ∧ l.Nodup ∧ ∀ x ∈ l, x < n
  shuffle_perm : ∀ g l, (R.shuffle g l).1.Perm l
  sampleScored_isSome : ∀ g pool k, k ≤ pool.length → (R.sampleScored g pool k).isSome
  sampleScored_spec : ∀ g pool k l g', R.sampleScored g pool k = some (l, g') →
    l.length = k ∧ ∀ x ∈ l, x ∈ pool

/-- "is ranked at least as high": the descending-by-fitness order on
scored chromosomes. -/
def fitGe (a b : ℚ × List Nat) : Prop := b.1 ≤ a.1

instance : DecidableRel fitGe := fun a b => inferInstanceAs (Decidable (b.1 ≤ a.1))

instance : IsTotal (ℚ × List Nat) fitGe := ⟨fun a b => le_total b.1 a.1⟩

instance : IsTrans (ℚ × List Nat) fitGe := ⟨fun _ _ _ h1 h2 => le_trans h2 h1⟩

/-- Stable descending sort of `(fitness, chromosome)` pairs by fitness:
`scored_population.sort(key=lambda item: item[0], reverse=True)`.
Python's `list.sort` is a stable sort; a stable sort is a unique function
of the comparator, so the (stable) insertion sort below computes it. -/
def sortScoredDesc (l : List (ℚ × List Nat)) : List (ℚ × List Nat) :=
  l.insertionSort fitGe

/-- `base_metrics[i]["score"]` as a total function (only applied to
in-range indices). -/
def metricScore (metrics : List BaseMetric) (i : Nat) : ℚ :=
  ((metrics.get? i).map (fun m => m.score)).getD 0

/-- "scores at least as high": descending order of task indices by
heuristic score. -/
def scoreGe (metrics : List BaseMetric) (i j : Nat) : Prop :=
  metricScore metrics j ≤ metricScore metrics i

instance (metrics : List BaseMetric) : DecidableRel (scoreGe metrics) :=
  fun i j => inferInstanceAs (Decidable (metricScore metrics j ≤ metricScore metrics i))

instance (metrics : List BaseMetric) : IsTotal Nat (scoreGe metrics) :=
  ⟨fun i j => le_total (metricScore metrics j) (metricScore metrics i)⟩

instance (metrics : List BaseMetric) : IsTrans Nat (scoreGe metrics) :=
  ⟨fun _ _ _ h1 h2 => le_trans h2 h1⟩

/-- `sorted(index_list, key=lambda i: base_metrics[i]["score"], reverse=True)`:
the heuristic baseline ordering seeding the population (`sorted` is
stable, hence equal to this stable insertion sort). -/
def heuristicOrder (n : Nat) (metrics : List BaseMetric) : List Nat :=
  (List.range n).insertionSort (scoreGe metrics)

/-- The `population_size - 1` shuffled copies of the heuristic order. -/
def seedPopulation {σ : Type} (R : RNG σ) : Nat → σ → List Nat → List (List Nat) × σ
  | 0, g, _ => ([], g)
  | n + 1, g, h =>
    let sg := R.shuffle g h
    let rest := seedPopulation R n sg.2 h
    (sg.1 :: rest.1, rest.2)

/-- `TaskSchedulerGA._days_until_deadline` (uncapped; `none` both for a
falsy deadline and for a parse failure, which the code catches). -/
def days_until_deadline (env : DtEnv) (task : PyDict) : Option Int :=
  let d := (dictGet task "deadline").getD vnone
  if truthy d then env.parseDelta d else none

/-- `TaskSchedulerGA._mood_bonus`. -/
def mood_bonus (task ctx : PyDict) (position total_tasks : Nat) : Except PyErr ℚ := do
  let mv := (dictGet ctx "mood").getD vnone
  let mood ← pyLower (if truthy mv then mv else vstr "")
  if mood = "" then .ok 0
  else do
    let difficulty ← pyLower ((dictGet task "difficulty").getD (vstr "medium"))
    let positionFactor : ℚ := max 0 ((total_tasks : ℚ) - (position : ℚ))
    if (mood = "focused" ∨ mood = "okay" ∨ mood = "energetic") ∧
        (difficulty = "hard" ∨ difficulty = "medium") then
      .ok (positionFactor * (1 / 2))
    else if (mood = "sad" ∨ mood = "very_sad" ∨ mood = "tired") ∧ difficulty = "hard" then
      .ok (-1 * ((position : ℚ) + 1))
    else .ok 0

/-- The body of `TaskSchedulerGA._fitness`, folding over the enumerated
chromosome with the three accumulators of the Python loop. -/
def fitnessAux (env : DtEnv) (tasks : List PyDict) (metrics : List BaseMetric)
    (ctx : PyDict) (total_tasks : Nat) :
    List (Nat × Nat) → ℚ → ℚ → ℚ → Except PyErr ℚ
  | [], totalScore, penalty, moodBonus => .ok (totalScore - penalty + moodBonus)
  | (position, taskIdx) :: rest, totalScore, penalty, moodBonus =>
    match metrics.get? taskIdx, tasks.get? taskIdx with
    | some m, some task => do
      let priorityComponent : ℚ := (m.weight : ℚ) * ((total_tasks : ℚ) - (position : ℚ))
      let scoreComponent : ℚ := m.score * (1 / 10)
      let ts := totalScore + priorityComponent + scoreComponent
      let (ts, pen) :=
        match days_until_deadline env task with
        | some dr =>
          if dr < 0 then (ts, penalty + (dr.natAbs : ℚ) * 5)
          else if dr ≤ 2 then (ts + 2, penalty)
          else if 7 < dr then (ts - 1 / 2, penalty)
          else (ts, penalty)
        | none => (ts, penalty)
      let mb ← mood_bonus task ctx position total_tasks
      fitnessAux env tasks metrics ctx total_tasks rest ts pen (moodBonus + mb)
    | _, _ => .error .indexError

/-- `TaskSchedulerGA._fitness`. -/
def fitness (env : DtEnv) (chromosome : List Nat) (tasks : List PyDict)
    (metrics : List BaseMetric) (ctx : PyDict) : Except PyErr ℚ :=
  fitnessAux env tasks metrics ctx chromosome.length chromosome.enum 0 0 0

/-- The child template `child = [None]*size; child[start:end] = parent1[start:end]`. -/
def oxInit (p1 : List Nat) (s e : Nat) : List (Option Nat) :=
  p1.enum.map (fun ig => if s ≤ ig.1 ∧ ig.1 < e then some ig.2 else none)

/-- Scan a suffix for the first free (`none`) slot, tracking the absolute
index. -/
def scanFree : List (Option Nat) → Nat → Nat
  | [], i => i
  | none :: _, i => i
  | some _ :: rest, i => scanFree rest (i + 1)

/-- `while child[pointer] is not None: pointer += 1` — the first index
`≥ p` holding `none` (or `child.length` when the scan runs off the end,
where Python would raise `IndexError`). -/
def nextFree (child : List (Option Nat)) (p : Nat) : Nat :=
  scanFree (child.drop p) p

/-- The order-crossover fill loop over `parent2`'s genes. -/
def oxFill (genes : List Nat) (child : List (Option Nat)) (pointer : Nat) :
    Except PyErr (List (Option Nat)) :=
  match genes with
  | [] => .ok child
  | gene :: rest =>
    if some gene ∈ child then oxFill rest child pointer
    else
      let p := nextFree child pointer
      if p < child.length then oxFill rest (child.set p (some gene)) p
      else .error .indexError

/-- `all slots filled` extraction; `none` when a `None` remains (such a
corrupt chromosome would make Python fail downstream). -/
def allSome : List (Option Nat) → Option (List Nat)
  | [] => some []
  | some a :: l => (allSome l).map (fun r => a :: r)
  | none :: _ => none

/-- `TaskSchedulerGA._crossover` (order crossover).  A child left with
unfilled slots cannot occur for permutation parents; it is modelled as an
immediate `typeError` (Python would return the corrupt list and raise on
its next use). -/
def crossover {σ : Type} (cfg : GAConfig) (R : RNG σ) (g : σ) (p1 p2 : List Nat) :
    Except PyErr (List Nat × σ) :=
  let rg := R.random g
  if cfg.crossoverRate < rg.1 then .ok (p1, rg.2)
  else
    match R.randomSample rg.2 p1.length 2 with
    | none => .error .valueError
    | some ([a, b], g') =>
      let s := min a b
      let e := max a b
      match oxFill p2 (oxInit p1 s e) 0 with
      | .error err => .error err
      | .ok child =>
        match allSome child with
        | some c => .ok (c, g')
        | none => .error .typeError
    | some (_, _) => .error .valueError

/-- `TaskSchedulerGA._mutate`: swap two sampled positions. -/
def mutate {σ : Type} (cfg : GAConfig) (R : RNG σ) (g : σ) (chromosome : List Nat) :
    Except PyErr (List Nat × σ) :=
  let rg := R.random g
  if cfg.mutationRate < rg.1 then .ok (chromosome, rg.2)
  else
    match R.randomSample rg.2 chromosome.length 2 with
    | none => .error .valueError
    | some ([i, j], g') =>
      match chromosome.get? i, chromosome.get? j with
      | some vi, some vj => .ok ((chromosome.set i vj).set j vi, g')
      | _, _ => .error .indexError
    | some (_, _) => .error .valueError

/-- `TaskSchedulerGA._tournament_select`. -/
def tournament_select {σ : Type} (R : RNG σ) (g : σ)
    (scored : List (ℚ × List Nat)) : Except PyErr (List Nat × σ) :=
  let poolSize := max 3 (min scored.length (max 5 (scored.length / 2)))
  let pool := scored.take poolSize
  let k := min pool.length 3
  match R.sampleScored g pool k with
  | none => .error .valueError
  | some (contenders, g') =>
    match sortScoredDesc contenders with
    | [] => .error .indexError
    | c :: _ => .ok (c.2, g')

/-- `do let f ← fitness …; pure (f, c)` over a population, in Python's
sequential order (first exception wins). -/
def exMap {α β : Type} (f : α → Except PyErr β) : List α → Except PyErr (List β)
  | [] => .ok []
  | a :: l => do
    let b ← f a
    let r ← exMap f l
    .ok (b :: r)

/-- The evolving state of one `optimize` run. -/
structure GAState (σ : Type) where
  rng : σ
  population : List (List Nat)
  history : List ℚ
  best : Option (ℚ × List Nat)
  bestGen : Nat

/-- The breeding while-loop: produce `n` children. -/
def breed {σ : Type} (cfg : GAConfig) (R : RNG σ) (scored : List (ℚ × List Nat)) :
    Nat → σ → Except PyErr (List (List Nat) × σ)
  | 0, g => .ok ([], g)
  | n + 1, g => do
    let (p1, g) ← tournament_select R g scored
    let (p2, g) ← tournament_select R g scored
    let (child, g) ← crossover cfg R g p1 p2
    let (child, g) ← mutate cfg R g child
    let (rest, g) ← breed cfg R scored n g
    .ok (child :: rest, g)

/-- One generation of the loop in `TaskSchedulerGA.optimize`. -/
def gaStep {σ : Type} (cfg : GAConfig) (R : RNG σ) (env : DtEnv)
    (tasks : List PyDict) (metrics : List BaseMetric) (ctx : PyDict)
    (st : GAState σ) (genIdx : Nat) : Except PyErr (GAState σ) := do
  let scored ← exMap (fun c => do
    let f ← fitness env c tasks metrics ctx
    .ok ((f, c) : ℚ × List Nat)) st.population
  match sortScoredDesc scored with
  | [] => .error .indexError
  | top :: tail =>
    let history := st.history ++ [top.1]
    let bb : (ℚ × List Nat) × Nat :=
      match st.best with
      | none => ((top.1, top.2), genIdx + 1)
      | some (bf, bc) => if bf < top.1 then ((top.1, top.2), genIdx + 1) else ((bf, bc), st.bestGen)
    let eliteCount := max 2 (cfg.populationSize / 5)
    let elites := ((top :: tail).take eliteCount).map (fun fc => fc.2)
    let bo ← breed cfg R (top :: tail) (cfg.populationSize - elites.length) st.rng
    .ok ⟨bo.2, elites ++ bo.1, history, some bb.1, bb.2⟩

/-- `for generation in range(self.generations)`. -/
def gaLoop {σ : Type} (cfg : GAConfig) (R : RNG σ) (env : DtEnv)
    (tasks : List PyDict) (metrics : List BaseMetric) (ctx : PyDict) :
    Nat → Nat → GAState σ → Except PyErr (GAState σ)
  | 0, _, st => .ok st
  | n + 1, genIdx, st => do
    let st' ← gaStep cfg R env tasks metrics ctx st genIdx
    gaLoop cfg R env tasks metrics ctx n (genIdx + 1) st'

/-- Python's banker's rounding of an exact rational. -/
def roundHalfEven (q : ℚ) : Int :=
  let f : Int := ⌊q⌋
  let r : ℚ := q - (f : ℚ)
  if r < 1 / 2 then f
  else if 1 / 2 < r then f + 1
  else if f % 2 = 0 then f else f + 1

/-- `round(x, 2)`. -/
def round2 (q : ℚ) : ℚ := ((roundHalfEven (q * 100) : ℚ)) / 100

/-- Replace one of the three timestamp fields by its `isoformat` string
when the stored value is a `datetime`. -/
def dtConvert (env : DtEnv) (d : PyDict) (field : String) : PyDict :=
  match dictGet d field with
  | some (vdt n) => dictSet d field (vstr (env.isoStr n))
  | _ => d

/-- Building one annotated schedule entry from `dict(tasks[task_idx])`. -/
def buildEntry (env : DtEnv) (task : PyDict) (m : BaseMetric) (rank : Nat) : PyDict :=
  let tc := dictSet task "heuristicPriority" (vstr m.label)
  let tc := dictSet tc "heuristicScore" (vfloat (round2 m.score))
  let tc := dictSet tc "gaRank" (vint (rank : Int))
  let tc :=
    if (dictGet tc "_id").isSome then
      dictPop (dictSet tc "id" (vstr (pyStr env ((dictGet tc "_id").getD vnone)))) "_id"
    else tc
  let tc := dtConvert env tc "deadline"
  let tc := dtConvert env tc "createdAt"
  dtConvert env tc "updatedAt"

/-- The ordered, annotated schedule built from the best chromosome. -/
def buildSchedule (env : DtEnv) (tasks : List PyDict) (metrics : List BaseMetric)
    (chromosome : List Nat) : List PyDict :=
  chromosome.enum.map (fun ri =>
    buildEntry env ((tasks.get? ri.2).getD []) ((metrics.get? ri.2).getD ⟨0, "low", 0, 1⟩)
      (ri.1 + 1))

/-- A metadata dict value (float, int, float list, or str→int dict). -/
inductive MVal where
  | mfloat (q : ℚ)
  | mninf
  | mint (n : Int)
  | mlist (xs : List ℚ)
  | mdict (kvs : List (String × Int))
deriving DecidableEq, Repr

/-- The result of `optimize`: the schedule plus the metadata dict in
insertion order. -/
structure OptimizeOutput where
  schedule : List PyDict
  metadata : List (String × MVal)
deriving DecidableEq, Repr

/-- Metadata lookup by key. -/
def metaGet (m : List (String × MVal)) (k : String) : Option MVal :=
  (List.find? (fun kv => kv.1 = k) m).map (fun kv => kv.2)

/-- `base_metrics` construction: `heuristic_priority` per task plus the
`priority_map` weight. -/
def metricOf (cfg : PrioritizerCfg) (env : DtEnv) (ctx : PyDict)
    (idx : Nat) (task : PyDict) : Except PyErr BaseMetric := do
  let ls ← heuristic_priority cfg env task ctx
  let w ← priorityWeight ls.1
  .ok ⟨idx, ls.1, ls.2, w⟩

/-- Count of one label in `base_metrics` (for `prioritySummary`). -/
def countLabel (metrics : List BaseMetric) (label : String) : Int :=
  ((metrics.filter (fun m => m.label = label)).length : Int)

/-- `TaskSchedulerGA.optimize`. -/
def optimize {σ : Type} (cfg : GAConfig) (R : RNG σ) (env : DtEnv) (g : σ)
    (tasks : List PyDict) (context : Option PyDict) : Except PyErr OptimizeOutput :=
  if tasks.isEmpty then
    .ok ⟨[], [("fitness", .mfloat 0), ("generations", .mint 0), ("prioritySummary", .mdict [])]⟩
  else do
    let ctx := context.getD []
    let numTasks := tasks.length
    let metrics ← exMap (fun it => metricOf cfg.pcfg env ctx it.1 it.2) tasks.enum
    let horder := heuristicOrder numTasks metrics
    let seeded := seedPopulation R (cfg.populationSize - 1) g horder
    let population := horder :: seeded.1
    let st0 : GAState σ := ⟨seeded.2, population, [], none, 0⟩
    let stF ← gaLoop cfg R env tasks metrics ctx cfg.generations 0 st0
    let bestChromosome := match stF.best with
      | some bc => bc.2
      | none => horder
    let schedule := buildSchedule env tasks metrics bestChromosome
    .ok ⟨schedule,
      [("fitness", match stF.best with | some bc => .mfloat bc.1 | none => .mninf),
       ("evaluatedGenerations", .mint (stF.bestGen : Int)),
       ("fitnessHistory", .mlist stF.history),
       ("prioritySummary", .mdict
         [("high", countLabel metrics "high"),
          ("medium", countLabel metrics "medium"),
          ("low", countLabel metrics "low")])]⟩

/-- `isOk` discriminator for modelled Python computations. -/
def exIsOk {α : Type} : Except PyErr α → Bool
  | .ok _ => true
  | .error _ => false

/-- The task's difficulty value (defaulting to `"medium"`) is an actual
string, so `.lower()` cannot raise on it. -/
def diffOk (task : PyDict) : Bool :=
  match (dictGet task "difficulty").getD (vstr "medium") with
  | vstr _ => true
  | _ => false

/-- Field well-formedness of a task record: `int(urgency)` succeeds and
the difficulty value (defaulting to `"medium"`) is an actual string. -/
def taskWF (task : PyDict) : Bool :=
  exIsOk (pyInt ((dictGet task "urgency").getD (vint 3))) && diffOk task

/-- The context's mood value is a string or falsy (so `(mood or '').lower()`
cannot raise). -/
def ctxMoodWF (ctx : PyDict) : Bool :=
  match (dictGet ctx "mood").getD vnone with
  | vstr _ => true
  | v => !truthy v

/-- The lowered mood string the fitness code works with (empty when the
mood value is falsy or not a string). -/
def moodStr (ctx : PyDict) : String :=
  match (dictGet ctx "mood").getD vnone with
  | vstr s => if s = "" then "" else lowerString s
  | _ => ""

/-- The lowered difficulty string of a task (defaulting to `"medium"`;
empty when the stored value is not a string). -/
def diffStr (task : PyDict) : String :=
  match (dictGet task "difficulty").getD (vstr "medium") with
  | vstr s => lowerString s
  | _ => ""

/-- Modelled from the spec's fitness description (claim C5): the deadline
adjustment of one task — `-5·|d|` when overdue, `+2` when due within two
days, `-1/2` when more than a week out, `0` otherwise or when unknown. -/
def specDeadlineAdj (dr : Option Int) : ℚ :=
  match dr with
  | some d =>
    if d < 0 then -(5 * (d.natAbs : ℚ))
    else if d ≤ 2 then 2
    else if 7 < d then -(1 / 2)
    else 0
  | none => 0

/-- Modelled from the spec's fitness description (claim C5): the mood
bonus of one task at position `p` of `n`. -/
def specMoodBonus (mood difficulty : String) (p n : Nat) : ℚ :=
  if mood ≠ "" ∧ (mood = "focused" ∨ mood = "okay" ∨ mood = "energetic") ∧
      (difficulty = "hard" ∨ difficulty = "medium") then (1 / 2) * ((n : ℚ) - (p : ℚ))
  else if mood ≠ "" ∧ (mood = "sad" ∨ mood = "very_sad" ∨ mood = "tired") ∧
      difficulty = "hard" then -((p : ℚ) + 1)
  else 0

/-- One position's contribution to the spec's fitness formula (claim C5):
`weight·(N-p) + score·0.1` plus the deadline adjustment and mood bonus. -/
def specEntry (env : DtEnv) (tasks : List PyDict) (metrics : List BaseMetric)
    (ctx : PyDict) (n : Nat) (pi : Nat × Nat) : ℚ :=
  ((((metrics.get? pi.2).getD ⟨0, "low", 0, 1⟩).weight : ℚ)) * ((n : ℚ) - (pi.1 : ℚ)) +
  ((metrics.get? pi.2).getD ⟨0, "low", 0, 1⟩).score * (1 / 10) +
  specDeadlineAdj (days_until_deadline env ((tasks.get? pi.2).getD [])) +
  specMoodBonus (moodStr ctx) (diffStr ((tasks.get? pi.2).getD [])) pi.1 n

/-- The spec's closed fitness formula (claim C5): the sum over positions
of `weight·(N-p) + score·0.1` plus deadline adjustments and mood bonuses. -/
def specFitness (env : DtEnv) (chromosome : List Nat) (tasks : List PyDict)
    (metrics : List BaseMetric) (ctx : PyDict) : ℚ :=
  (chromosome.enum.map (specEntry env tasks metrics ctx chromosome.length)).sum

/-- Claim C1's permutation property of an `optimize` result: the schedule
is the entry-wise image of some permutation of the task indices. -/
def IsPermSchedule (cfg : GAConfig) (env : DtEnv) (tasks : List PyDict)
    (context : Option PyDict) (out : OptimizeOutput) : Prop :=
  ∃ metrics chromosome,
    exMap (fun it => metricOf cfg.pcfg env (context.getD []) it.1 it.2) tasks.enum = .ok metrics ∧
    chromosome.Perm (List.range tasks.length) ∧
    out.schedule = buildSchedule env tasks metrics chromosome ∧
    out.schedule.length = tasks.length

/-- Claim C1's operator property: `_crossover` only produces permutations
from permutation parents. -/
def CrossoverKeepsPerm {σ : Type} (cfg : GAConfig) (R : RNG σ) : Prop :=
  ∀ n g p1 p2 c g', p1.Perm (List.range n) → p2.Perm (List.range n) →
    crossover cfg R g p1 p2 = .ok (c, g') → c.Perm (List.range n)

/-- Claim C1's operator property: `_mutate` only produces permutations
from permutation input. -/
def MutateKeepsPerm {σ : Type} (cfg : GAConfig) (R : RNG σ) : Prop :=
  ∀ n g p c g', p.Perm (List.range n) →
    mutate cfg R g p = .ok (c, g') → c.Perm (List.range n)

/-- Claim C1's seeding property: every seeded chromosome (the heuristic
order and each of its shuffles) is a permutation of the index set. -/
def SeedKeepsPerm {σ : Type} (R : RNG σ) : Prop :=
  ∀ n k g h, h.Perm (List.range n) →
    ∀ c ∈ (seedPopulation R k g h).1, c.Perm (List.range n)

/-- A deterministic instance of the abstract random source, used for the
concrete runs below: `random()` always returns `0`, samples return
initial segments, shuffling is the identity permutation — all behaviours
Python's `random` module can exhibit. -/
def TrivR : RNG Unit where
  random _ := (0, ())
  randomSample g n k := if k ≤ n then some (List.range k, g) else none
  shuffle g l := (l, g)
  sampleScored g pool k := if k ≤ pool.length then some (pool.take k, g) else none

/-- A concrete clock/datetime environment for the runs below (nothing in
them carries a parseable deadline). -/
def envW : DtEnv where
  parseDelta _ := none
  isoStr _ := "iso"
  floatRepr _ := "float"
  dtRepr _ := "datetime"

/-- A small concrete configuration (population 4, two generations) for
closed-form runs. -/
def cfgW : GAConfig := { populationSize := 4, generations := 2 }

/-- Concrete task fixtures. -/
def task1 : PyDict :=
  [("id", vstr "a"), ("title", vstr "T1"), ("difficulty", vstr "hard"), ("urgency", vint 1)]

def task2 : PyDict :=
  [("id", vstr "b"), ("difficulty", vstr "easy"), ("urgency", vint 4)]

def tasksW : List PyDict := [task1, task2]

/-- The concrete `optimize` run on `tasksW` (a total value: the run
succeeds, as proved below). -/
def outW : OptimizeOutput :=
  ((optimize cfgW TrivR envW () tasksW none).toOption).getD ⟨[], []⟩

/-- Task fixtures carrying a Mongo-style `_id` key, for claim C9. -/
def taskId1 : PyDict :=
  [("_id", vstr "x1"), ("difficulty", vstr "easy"), ("urgency", vint 2)]

def taskId2 : PyDict :=
  [("_id", vstr "x2"), ("difficulty", vstr "hard"), ("urgency", vint 3)]

def tasksId : List PyDict := [taskId1, taskId2]

/-- The concrete `optimize` run on `tasksId`. -/
def outId : OptimizeOutput :=
  ((optimize cfgW TrivR envW () tasksId none).toOption).getD ⟨[], []⟩

/-- Modelled from the spec's words (claim C4): the metadata object the
claim says the empty-input call returns. -/
def claimedEmptyMetadata : List (String × MVal) :=
  [("fitness", .mfloat 0), ("evaluatedGenerations", .mint 0),
   ("prioritySummary", .mdict [("high", 0), ("medium", 0), ("low", 0)])]

/-- The metadata dict the code actually returns on empty input. -/
def actualEmptyMetadata : List (String × MVal) :=
  [("fitness", .mfloat 0), ("generations", .mint 0), ("prioritySummary", .mdict [])]

/-- The genes of `parent2` not yet present in the partially filled child
(the genes the OX fill loop still has to place). -/
def newGenes (child : List (Option Nat)) (rest : List Nat) : List Nat :=
  rest.filter (fun g => decide (¬ some g ∈ child))

/-- The invariant of one `optimize` run's evolving state: a non-empty
population of permutations, a non-decreasing best-fitness history, an
elitist best that dominates the whole history, and a last history entry
realized by a member of the live population. -/
def StInv {σ : Type} (env : DtEnv) (tasks : List PyDict) (metrics : List BaseMetric)
    (ctx : PyDict) (st : GAState σ) : Prop :=
  st.population ≠ [] ∧
  (∀ c ∈ st.population, c.Perm (List.range tasks.length)) ∧
  st.history.Chain' (· ≤ ·) ∧
  (match st.best with
   | none => st.history = []
   | some fb => fb.2.Perm (List.range tasks.length) ∧
       (∀ x ∈ st.history, x ≤ fb.1) ∧ fb.1 ∈ st.history) ∧
  (match st.history.getLast? with
   | none => True
   | some lastF => ∃ c ∈ st.population, fitness env c tasks metrics ctx = .ok lastF)

/-- The option value is not a `datetime` object. -/
def notDt : Option PyVal → Bool
  | some (vdt _) => false
  | _ => true

/-- A task record that carries none of the derived output keys, no Mongo
`_id`, and no `datetime`-valued timestamp fields — i.e. one on which the
schedule entry is the record with fields only appended. -/
def cleanTask (task : PyDict) : Bool :=
  (dictGet task "heuristicPriority").isNone && (dictGet task "heuristicScore").isNone &&
  (dictGet task "gaRank").isNone && (dictGet task "_id").isNone &&
  notDt (dictGet task "deadline") && notDt (dictGet task "createdAt") &&
  notDt (dictGet task "updatedAt")

/-- Claim C9's append-only schedule shape: each entry is the original
task record of some permutation of the indices, with exactly the three
derived fields appended at the end. -/
def SchedAppendOnly (cfg : GAConfig) (env : DtEnv) (tasks : List PyDict)
    (context : Option PyDict) (out : OptimizeOutput) : Prop :=
  ∃ (metrics : List BaseMetric) (chromosome : List Nat),
    exMap (fun it => metricOf cfg.pcfg env (context.getD []) it.1 it.2) tasks.enum = .ok metrics ∧
    chromosome.Perm (List.range tasks.length) ∧
    out.schedule = chromosome.enum.map (fun ri =>
      (tasks.get? ri.2).getD [] ++
      [("heuristicPriority", vstr (((metrics.get? ri.2).getD ⟨0, "low", 0, 1⟩).label)),
       ("heuristicScore", vfloat (round2 (((metrics.get? ri.2).getD ⟨0, "low", 0, 1⟩).score))),
       ("gaRank", vint ((ri.1 + 1 : Nat) : Int))])

/-- Claim C3's scorer-totality: `heuristic_priority` returns normally on
every task of the batch. -/
def ScorerTotal (cfg : PrioritizerCfg) (env : DtEnv) (tasks : List PyDict)
    (ctx : PyDict) : Prop :=
  ∀ t ∈ tasks, exIsOk (heuristic_priority cfg env t ctx) = true

/-- Claim C3's difficulty recovery: every unknown difficulty string maps
to the medium default `2`. -/
def DifficultyDefaults : Prop :=
  ∀ s : String, s ≠ "easy" → s ≠ "medium" → s ≠ "hard" → difficultyMapGet (vstr s) = 2

/-- Claim C3's deadline recovery: a task whose (truthy) deadline value the
clock environment cannot parse is scored exactly like the same task with
its deadline replaced by `None` (the neutral 7-day fallback). -/
def DeadlineNeutral (cfg : PrioritizerCfg) (env : DtEnv) : Prop :=
  ∀ task ctx, env.parseDelta ((dictGet task "deadline").getD vnone) = none →
    calculate_priority_score cfg env task ctx =
    calculate_priority_score cfg env (dictSet task "deadline" vnone) ctx

/-- The deterministic random source satisfies everything Python's
`random` module guarantees. -/
theorem trivR_wf : RWF TrivR := by
  constructor
  · intro g; simp [TrivR]
  · intro g; simp [TrivR]
  · intro g n k hk; simp [TrivR, hk]
  · intro g n k l g' h
    simp only [TrivR] at h
    split at h
    · rename_i hk
      cases h
      refine ⟨List.length_range k, List.nodup_range k, ?_⟩
      intro x hx
      exact lt_of_lt_of_le (List.mem_range.mp hx) hk
    · cases h
  · intro g l; simp [TrivR]
  · intro g pool k hk; simp [TrivR, hk]
  · intro g pool k l g' h
    simp only [TrivR] at h
    split at h
    · rename_i hk
      cases h
      exact ⟨List.length_take_of_le hk, fun x hx => List.mem_of_mem_take hx⟩
    · cases h

/-- C2: the claim says a single-task batch always yields a length-1
schedule; in fact, as soon as the crossover (or mutation) branch fires,
`random.sample(range(1), 2)` raises `ValueError`, so `optimize` on one
task raises under the default configuration.  Here: the first `random()`
draw is `0 ≤ crossover_rate`, so `_crossover` samples two cut points
from `range(1)` and raises. -/
theorem c2_single_task_raises :
    optimize {} TrivR envW ()
      [[("id", vstr "t"), ("title", vstr "only"), ("difficulty", vstr "medium"),
        ("urgency", vint 2)]] none = .error .valueError := by
  with_unfolding_all rfl

/-- C3 (counterexample): a task whose `urgency` field is the non-numeric
string `"high"` makes `int(task.get('urgency', 3))` raise `ValueError`,
which `calculate_priority_score` does not catch, and `optimize` surfaces
the same exception — contradicting "no condition is surfaced to the
caller as an error" for "otherwise partially malformed fields". -/
theorem c3_counterexample :
    calculate_priority_score {} envW [("urgency", vstr "high")] [] = .error .valueError ∧
    optimize {} TrivR envW () [[("urgency", vstr "high")], [("urgency", vint 2)]] none =
      .error .valueError := by
  constructor
  · with_unfolding_all rfl
  · with_unfolding_all rfl

/-- C4 (counterexample): on the empty task list the code returns the
metadata dict `{"fitness": 0.0, "generations": 0, "prioritySummary": {}}`
— the key is `"generations"`, not `"evaluatedGenerations"`, and the
priority summary is the empty dict, not zeroed per-label counts — so the
metadata is not what the claim states. -/
theorem c4_counterexample :
    optimize {} TrivR envW () [] none = .ok ⟨[], actualEmptyMetadata⟩ ∧
    actualEmptyMetadata ≠ claimedEmptyMetadata ∧
    metaGet actualEmptyMetadata "evaluatedGenerations" = none ∧
    metaGet claimedEmptyMetadata "evaluatedGenerations" = some (.mint 0) := by
  refine ⟨by with_unfolding_all rfl, by decide, by decide, by decide⟩

/-- C4 (amended): `optimize` on an empty task list — for every
configuration, random source and context — returns an empty schedule and
the metadata dict `{"fitness": 0.0, "generations": 0,
"prioritySummary": {}}`, without running any generations. -/
theorem c4_empty_input {σ : Type} (cfg : GAConfig) (R : RNG σ) (env : DtEnv)
    (g : σ) (context : Option PyDict) :
    optimize cfg R env g [] context = .ok ⟨[], actualEmptyMetadata⟩ := rfl

/-- C7: the task `{difficulty: "medium", urgency: 3, deadline: null}` has
unadjusted weighted sum `5*3 - 2*7 + 1*2 = 3 < 18`, yet scored with
`{mood: "okay"}` the fuzzy rule for mood ∈ {okay, focused} with medium
difficulty lifts the score to the high threshold `18`, and the label
mapping sends `≥ 18` to "high", `≥ 10` to "medium", and the rest to
"low" — so the label is "high". -/
theorem c7_mood_fuzzy_rule :
    calculate_priority_score {} envW
      [("difficulty", vstr "medium"), ("urgency", vint 3), ("deadline", vnone)] [] = .ok 3 ∧
    heuristic_priority {} envW
      [("difficulty", vstr "medium"), ("urgency", vint 3), ("deadline", vnone)]
      [("mood", vstr "okay")] = .ok ("high", 18) ∧
    ((3 : ℚ) < 18) ∧
    (∀ s : ℚ, map_score_to_priority {} s =
      if 18 ≤ s then "high" else if 10 ≤ s then "medium" else "low") := by
  refine ⟨by with_unfolding_all rfl, by with_unfolding_all rfl,
    by norm_num, fun s => rfl⟩

theorem except_bind_ok {α β : Type} (a : α) (f : α → Except PyErr β) :
    (Except.ok a >>= f) = f a := rfl

theorem except_bind_error {α β : Type} (e : PyErr) (f : α → Except PyErr β) :
    ((Except.error e : Except PyErr α) >>= f) = Except.error e := rfl

theorem except_bind_ok_iff {α β : Type} {x : Except PyErr α} {f : α → Except PyErr β}
    {b : β} : (x >>= f) = .ok b ↔ ∃ a, x = .ok a ∧ f a = .ok b := by
  cases x with
  | ok a => simp [except_bind_ok]
  | error e => simp [except_bind_error]

theorem exMap_length {α β : Type} (f : α → Except PyErr β) :
    ∀ {l : List α} {r : List β}, exMap f l = .ok r → r.length = l.length := by
  intro l
  induction l with
  | nil => intro r h; cases h; rfl
  | cons a t ih =>
    intro r h
    unfold exMap at h
    rw [except_bind_ok_iff] at h
    obtain ⟨b, hb, h⟩ := h
    rw [except_bind_ok_iff] at h
    obtain ⟨r', hr', h⟩ := h
    cases h
    simp [ih hr']

theorem exMap_mem {α β : Type} (f : α → Except PyErr β) :
    ∀ {l : List α} {r : List β}, exMap f l = .ok r →
      ∀ b ∈ r, ∃ a ∈ l, f a = .ok b := by
  intro l
  induction l with
  | nil => intro r h; cases h; intro b hb; cases hb
  | cons a t ih =>
    intro r h
    unfold exMap at h
    rw [except_bind_ok_iff] at h
    obtain ⟨b0, hb0, h⟩ := h
    rw [except_bind_ok_iff] at h
    obtain ⟨r', hr', h⟩ := h
    cases h
    intro b hb
    rcases List.mem_cons.mp hb with rfl | hb
    · exact ⟨a, List.mem_cons_self a t, hb0⟩
    · obtain ⟨a', ha', hfa'⟩ := ih hr' b hb
      exact ⟨a', List.mem_cons_of_mem a ha', hfa'⟩

theorem exMap_cover {α β : Type} (f : α → Except PyErr β) :
    ∀ {l : List α} {r : List β}, exMap f l = .ok r →
      ∀ a ∈ l, ∃ b ∈ r, f a = .ok b := by
  intro l
  induction l with
  | nil => intro r h a ha; cases ha
  | cons a0 t ih =>
    intro r h
    unfold exMap at h
    rw [except_bind_ok_iff] at h
    obtain ⟨b0, hb0, h⟩ := h
    rw [except_bind_ok_iff] at h
    obtain ⟨r', hr', h⟩ := h
    cases h
    intro a ha
    rcases List.mem_cons.mp ha with rfl | ha
    · exact ⟨b0, List.mem_cons_self b0 r', hb0⟩
    · obtain ⟨b, hb, hfb⟩ := ih hr' a ha
      exact ⟨b, List.mem_cons_of_mem b0 hb, hfb⟩

theorem exMap_total {α β : Type} (f : α → Except PyErr β) :
    ∀ {l : List α}, (∀ a ∈ l, exIsOk (f a) = true) →
      ∃ r, exMap f l = .ok r := by
  intro l
  induction l with
  | nil => intro _; exact ⟨[], rfl⟩
  | cons a t ih =>
    intro h
    have ha := h a (List.mem_cons_self a t)
    obtain ⟨b, hb⟩ : ∃ b, f a = .ok b := by
      cases hfa : f a with
      | ok b => exact ⟨b, rfl⟩
      | error e => rw [hfa] at ha; simp [exIsOk] at ha
    obtain ⟨r, hr⟩ := ih (fun x hx => h x (List.mem_cons_of_mem a hx))
    exact ⟨b :: r, by unfold exMap; rw [hb, except_bind_ok, hr, except_bind_ok]⟩

theorem scoreChrom_inv {x : Except PyErr ℚ} {c : List Nat}
    {p : ℚ × List Nat}
    (h : (do
      let f ← x
      (.ok ((f, c) : ℚ × List Nat) : Except PyErr (ℚ × List Nat))) = .ok p) :
    p.2 = c ∧ x = .ok p.1 := by
  rw [except_bind_ok_iff] at h
  obtain ⟨f, hf, h⟩ := h
  cases h
  exact ⟨rfl, hf⟩

theorem sortScoredDesc_perm (l : List (ℚ × List Nat)) : (sortScoredDesc l).Perm l :=
  List.perm_insertionSort fitGe l

theorem sortScoredDesc_sorted (l : List (ℚ × List Nat)) :
    List.Sorted fitGe (sortScoredDesc l) :=
  List.sorted_insertionSort fitGe l

theorem sortScoredDesc_head_ge {l : List (ℚ × List Nat)} {t : ℚ × List Nat}
    {r : List (ℚ × List Nat)} (h : sortScoredDesc l = t :: r) :
    ∀ p ∈ l, p.1 ≤ t.1 := by
  intro p hp
  have hmem : p ∈ t :: r := by
    rw [← h]
    exact (sortScoredDesc_perm l).symm.subset hp
  rcases List.mem_cons.mp hmem with rfl | hmem
  · exact le_refl _
  · have hs := sortScoredDesc_sorted l
    rw [h] at hs
    exact (List.sorted_cons.mp hs).1 p hmem

theorem sortScoredDesc_ne_nil {l : List (ℚ × List Nat)} (h : l ≠ []) :
    sortScoredDesc l ≠ [] := by
  intro he
  apply h
  have hp := sortScoredDesc_perm l
  rw [he] at hp
  exact hp.symm.eq_nil

theorem heuristicOrder_perm (n : Nat) (metrics : List BaseMetric) :
    (heuristicOrder n metrics).Perm (List.range n) :=
  List.perm_insertionSort (scoreGe metrics) (List.range n)

theorem dictGet_eq_none {d : PyDict} {k : String} :
    dictGet d k = none ↔ ∀ kv ∈ d, kv.1 ≠ k := by
  unfold dictGet
  constructor
  · intro h kv hkv
    cases hf : List.find? (fun kv => kv.1 = k) d with
    | some x => rw [hf] at h; cases h
    | none =>
      have := List.find?_eq_none.mp hf kv hkv
      simpa using this
  · intro h
    rw [List.find?_eq_none.mpr]
    · rfl
    · intro x hx
      simpa using h x hx

theorem dictSet_of_absent {d : PyDict} {k : String} (h : dictGet d k = none)
    (v : PyVal) : dictSet d k v = d ++ [(k, v)] := by
  unfold dictSet
  rw [if_neg]
  intro hany
  obtain ⟨kv, hkv, hk⟩ := List.any_eq_true.mp hany
  exact (dictGet_eq_none.mp h kv hkv) (by simpa using hk)

theorem dictGet_append (d1 d2 : PyDict) (k : String) :
    dictGet (d1 ++ d2) k = (dictGet d1 k).or (dictGet d2 k) := by
  unfold dictGet
  rw [List.find?_append]
  cases List.find? (fun kv => kv.1 = k) d1 <;> simp [Option.or]

theorem reduceOption_set_perm :
    ∀ (l : List (Option Nat)) (p g : Nat), l.get? p = some none →
      ((l.set p (some g)).reduceOption).Perm (g :: l.reduceOption) := by
  intro l
  induction l with
  | nil => intro p g h; cases h
  | cons a t ih =>
    intro p g h
    cases p with
    | zero =>
      have ha : a = none := by
        have : some a = some (none : Option Nat) := h
        exact Option.some.inj this
      subst ha
      simp [List.set]
    | succ n =>
      have ht : t.get? n = some none := h
      cases a with
      | none =>
        simpa [List.set] using ih n g ht
      | some b =>
        have := (ih n g ht).cons b
        simp only [List.set, List.reduceOption_cons_of_some]
        exact this.trans (List.Perm.swap g b t.reduceOption)

theorem exists_none_of_reduce_lt :
    ∀ (l : List (Option Nat)), l.reduceOption.length < l.length →
      ∃ i, l.get? i = some none := by
  intro l
  induction l with
  | nil => intro h; simp at h
  | cons a t ih =>
    intro h
    cases a with
    | none => exact ⟨0, rfl⟩
    | some b =>
      simp only [List.reduceOption_cons_of_some, List.length_cons] at h
      obtain ⟨i, hi⟩ := ih (by omega)
      exact ⟨i + 1, hi⟩

theorem reduce_length_le : ∀ (l : List (Option Nat)), l.reduceOption.length ≤ l.length := by
  intro l
  induction l with
  | nil => simp
  | cons a t ih => cases a <;> simp [List.reduceOption_cons_of_some] <;> omega

theorem scanFree_spec :
    ∀ (s : List (Option Nat)) (i : Nat),
      ∃ k, scanFree s i = i + k ∧
        ((k = s.length ∧ ¬ none ∈ s) ∨
         (s.get? k = some none ∧ ∀ j < k, s.get? j ≠ some none)) := by
  intro s
  induction s with
  | nil => intro i; exact ⟨0, rfl, Or.inl ⟨rfl, by simp⟩⟩
  | cons a t ih =>
    intro i
    cases a with
    | none => exact ⟨0, rfl, Or.inr ⟨rfl, by omega⟩⟩
    | some b =>
      obtain ⟨k, hk, hor⟩ := ih (i + 1)
      refine ⟨k + 1, by simpa [scanFree, Nat.add_comm, Nat.add_assoc, Nat.add_left_comm] using hk, ?_⟩
      rcases hor with ⟨hlen, hmem⟩ | ⟨hget, hmin⟩
      · exact Or.inl ⟨by simp [hlen], by simpa using hmem⟩
      · refine Or.inr ⟨hget, ?_⟩
        intro j hj
        cases j with
        | zero => simp
        | succ m => exact hmin m (by omega)

theorem nextFree_found {child : List (Option Nat)} {p : Nat}
    (hex : ∃ i, p ≤ i ∧ child.get? i = some none) :
    child.get? (nextFree child p) = some none ∧ p ≤ nextFree child p ∧
    ∀ j, p ≤ j → j < nextFree child p → child.get? j ≠ some none := by
  obtain ⟨i, hpi, hi⟩ := hex
  obtain ⟨k, hk, hor⟩ := scanFree_spec (child.drop p) p
  have hdrop : ∀ m, (child.drop p).get? m = child.get? (p + m) :=
    fun m => List.get?_drop child p m
  rcases hor with ⟨hlen, hmem⟩ | ⟨hget, hmin⟩
  · exfalso
    apply hmem
    have : (child.drop p).get? (i - p) = some none := by
      rw [hdrop, Nat.add_sub_cancel' hpi]
      exact hi
    exact List.get?_mem this
  · unfold nextFree
    rw [hk]
    refine ⟨by rw [← hdrop]; exact hget, by omega, ?_⟩
    intro j hpj hjk
    have := hmin (j - p) (by omega)
    rw [hdrop, Nat.add_sub_cancel' hpj] at this
    exact this

theorem oxFill_ok :
    ∀ (rest : List Nat) (child : List (Option Nat)) (pointer : Nat),
      rest.Nodup →
      child.reduceOption.Nodup →
      (∀ j < pointer, child.get? j ≠ some none) →
      (newGenes child rest).length + child.reduceOption.length ≤ child.length →
      ∃ child', oxFill rest child pointer = .ok child' ∧
        child'.length = child.length ∧
        child'.reduceOption.Nodup ∧
        (∀ g : Nat, some g ∈ child' ↔ some g ∈ child ∨ g ∈ rest) ∧
        child'.reduceOption.length =
          child.reduceOption.length + (newGenes child rest).length := by
  intro rest
  induction rest with
  | nil =>
    intro child pointer _ hndc _ _
    exact ⟨child, rfl, rfl, hndc, fun g => by simp, by simp [newGenes]⟩
  | cons gene rest' ih =>
    intro child pointer hndr hndc hptr hineq
    by_cases hmem : some gene ∈ child
    · have hng : newGenes child (gene :: rest') = newGenes child rest' := by
        simp [newGenes, hmem]
      rw [hng] at hineq
      obtain ⟨child', h1, h2, h3, h4, h5⟩ :=
        ih child pointer (List.Nodup.of_cons hndr) hndc hptr hineq
      refine ⟨child', ?_, h2, h3, ?_, ?_⟩
      · unfold oxFill
        rw [if_pos hmem]
        exact h1
      · intro g
        rw [h4 g, List.mem_cons]
        constructor
        · rintro (h | h)
          · exact Or.inl h
          · exact Or.inr (Or.inr h)
        · rintro (h | rfl | h)
          · exact Or.inl h
          · exact Or.inl hmem
          · exact Or.inr h
      · rw [h5, hng]
    · have hng : newGenes child (gene :: rest') = gene :: newGenes child rest' := by
        simp [newGenes, hmem]
      have hlt : child.reduceOption.length < child.length := by
        rw [hng] at hineq
        simp only [List.length_cons] at hineq
        omega
      obtain ⟨i, hi⟩ := exists_none_of_reduce_lt child hlt
      have hip : pointer ≤ i := by
        by_contra hc
        exact hptr i (by omega) hi
      obtain ⟨hfget, hfle, hfmin⟩ := nextFree_found ⟨i, hip, hi⟩
      obtain ⟨hplen, -⟩ := List.get?_eq_some.mp hfget
      have hperm := reduceOption_set_perm child (nextFree child pointer) gene hfget
      have hmem2 : ∀ x : Nat, some x ∈ child.set (nextFree child pointer) (some gene) ↔
          x = gene ∨ some x ∈ child := by
        intro x
        rw [← List.reduceOption_mem_iff, hperm.mem_iff, List.mem_cons,
          List.reduceOption_mem_iff]
      have hgnotin : gene ∉ rest' := (List.nodup_cons.mp hndr).1
      have hnd2 : (child.set (nextFree child pointer) (some gene)).reduceOption.Nodup := by
        refine hperm.symm.nodup (List.nodup_cons.mpr ⟨?_, hndc⟩)
        rw [List.reduceOption_mem_iff]
        exact hmem
      have hptr2 : ∀ j < nextFree child pointer,
          (child.set (nextFree child pointer) (some gene)).get? j ≠ some none := by
        intro j hj
        rw [List.get?_set_ne _ child (by omega : nextFree child pointer ≠ j)]
        by_cases hjp : j < pointer
        · exact hptr j hjp
        · exact hfmin j (by omega) hj
      have hng2 : newGenes (child.set (nextFree child pointer) (some gene)) rest' =
          newGenes child rest' := by
        apply List.filter_congr
        intro x hx
        have hxg : x ≠ gene := fun he => hgnotin (he ▸ hx)
        simp [hmem2 x, hxg]
      have hlen2 : (child.set (nextFree child pointer) (some gene)).length =
          child.length := List.length_set child _ _
      have hrlen2 : (child.set (nextFree child pointer) (some gene)).reduceOption.length =
          child.reduceOption.length + 1 := by
        rw [hperm.length_eq]
        simp
      have hineq2 : (newGenes (child.set (nextFree child pointer) (some gene)) rest').length +
          (child.set (nextFree child pointer) (some gene)).reduceOption.length ≤
          (child.set (nextFree child pointer) (some gene)).length := by
        rw [hng2, hrlen2, hlen2]
        rw [hng] at hineq
        simp only [List.length_cons] at hineq
        omega
      obtain ⟨child', h1, h2, h3, h4, h5⟩ :=
        ih (child.set (nextFree child pointer) (some gene)) (nextFree child pointer)
          (List.Nodup.of_cons hndr) hnd2 hptr2 hineq2
      refine ⟨child', ?_, by rw [h2, hlen2], h3, ?_, ?_⟩
      · unfold oxFill
        rw [if_neg hmem, if_pos hplen]
        exact h1
      · intro g
        rw [h4 g, hmem2 g, List.mem_cons]
        tauto
      · rw [h5, hng2, hrlen2]
        have := congrArg List.length hng
        simp only [List.length_cons] at this
        omega

theorem sieve_sublist :
    ∀ (l : List Nat) (k s e : Nat),
      ((List.enumFrom k l).map
        (fun ig => if s ≤ ig.1 ∧ ig.1 < e then some ig.2 else none)).reduceOption.Sublist l := by
  intro l
  induction l with
  | nil => intro k s e; simp
  | cons a t ih =>
    intro k s e
    simp only [List.enumFrom, List.map_cons]
    by_cases h : s ≤ k ∧ k < e
    · rw [if_pos h]
      simp only [List.reduceOption_cons_of_some]
      exact (ih (k + 1) s e).cons₂ a
    · rw [if_neg h]
      simp only [List.reduceOption_cons_of_none]
      exact (ih (k + 1) s e).cons a

theorem oxInit_reduce_sublist (p1 : List Nat) (s e : Nat) :
    (oxInit p1 s e).reduceOption.Sublist p1 := by
  unfold oxInit
  rw [List.enum_eq_enumFrom]
  exact sieve_sublist p1 0 s e

theorem oxInit_length (p1 : List Nat) (s e : Nat) :
    (oxInit p1 s e).length = p1.length := by
  simp [oxInit, List.enum_length]

theorem newGenes_full_length {p2 : List Nat} {child : List (Option Nat)}
    (hnd2 : p2.Nodup) (hndS : child.reduceOption.Nodup)
    (hsub : ∀ x ∈ child.reduceOption, x ∈ p2) :
    (newGenes child p2).length + child.reduceOption.length = p2.length := by
  have hsplit := List.filter_append_perm (fun g => decide ((some g : Option Nat) ∈ child)) p2
  have hlen := hsplit.length_eq
  rw [List.length_append] at hlen
  have hfeq : (p2.filter fun x => !decide ((some x : Option Nat) ∈ child)) =
      newGenes child p2 := by
    unfold newGenes
    apply List.filter_congr
    intro x _
    simp
  rw [hfeq] at hlen
  have hperm2 : (p2.filter fun g => decide ((some g : Option Nat) ∈ child)).Perm
      child.reduceOption := by
    rw [List.perm_ext_iff_of_nodup (List.Nodup.filter _ hnd2) hndS]
    intro x
    simp only [List.mem_filter, decide_eq_true_eq, List.reduceOption_mem_iff]
    constructor
    · rintro ⟨-, hx⟩
      exact hx
    · intro hx
      exact ⟨hsub x (List.reduceOption_mem_iff.mpr hx), hx⟩
  rw [hperm2.length_eq] at hlen
  omega

theorem allSome_of_full :
    ∀ (l : List (Option Nat)), l.reduceOption.length = l.length →
      allSome l = some l.reduceOption := by
  intro l
  induction l with
  | nil => intro _; rfl
  | cons a t ih =>
    intro h
    cases a with
    | none =>
      exfalso
      have := reduce_length_le t
      simp only [List.reduceOption_cons_of_none, List.length_cons] at h
      omega
    | some b =>
      simp only [List.reduceOption_cons_of_some, List.length_cons] at h
      simp only [allSome, List.reduceOption_cons_of_some]
      rw [ih (by omega)]
      rfl

theorem oxChild_spec {n : Nat} {p1 p2 : List Nat} (h1 : p1.Perm (List.range n))
    (h2 : p2.Perm (List.range n)) (s e : Nat) :
    ∃ child', oxFill p2 (oxInit p1 s e) 0 = .ok child' ∧
      allSome child' = some child'.reduceOption ∧
      child'.reduceOption.Perm (List.range n) := by
  have hnd1 : p1.Nodup := h1.symm.nodup (List.nodup_range n)
  have hnd2 : p2.Nodup := h2.symm.nodup (List.nodup_range n)
  have hndS : (oxInit p1 s e).reduceOption.Nodup :=
    (oxInit_reduce_sublist p1 s e).nodup hnd1
  have hsubS : ∀ x ∈ (oxInit p1 s e).reduceOption, x ∈ p2 := by
    intro x hx
    have hx1 : x ∈ p1 := (oxInit_reduce_sublist p1 s e).subset hx
    exact h2.symm.subset (h1.subset hx1)
  have hcount := newGenes_full_length hnd2 hndS hsubS
  have hlen0 : (oxInit p1 s e).length = p1.length := oxInit_length p1 s e
  have hlenp1 : p1.length = n := h1.length_eq.trans (List.length_range n)
  have hlenp2 : p2.length = n := h2.length_eq.trans (List.length_range n)
  have hrle := reduce_length_le (oxInit p1 s e)
  obtain ⟨child', hfill, hlen, hnd, hmem, hcnt⟩ :=
    oxFill_ok p2 (oxInit p1 s e) 0 hnd2 hndS (by omega) (by omega)
  have hfull : child'.reduceOption.length = child'.length := by omega
  refine ⟨child', hfill, allSome_of_full child' hfull, ?_⟩
  have hsubr : child'.reduceOption ⊆ List.range n := by
    intro x hx
    have hx' : some x ∈ child' := List.reduceOption_mem_iff.mp hx
    rcases (hmem x).mp hx' with h | h
    · exact h1.subset ((oxInit_reduce_sublist p1 s e).subset
        (List.reduceOption_mem_iff.mpr h))
    · exact h2.subset h
  have hlenr : child'.reduceOption.length = n := by omega
  exact (hnd.subperm hsubr).perm_of_length_le (by rw [hlenr, List.length_range])

theorem list_len2 {α : Type} {l : List α} (h : l.length = 2) : ∃ a b, l = [a, b] := by
  rcases l with - | ⟨a, l⟩
  · simp at h
  rcases l with - | ⟨b, l⟩
  · simp at h
  rcases l with - | ⟨x, l⟩
  · exact ⟨a, b, rfl⟩
  · simp at h

theorem crossover_keeps_perm {σ : Type} (cfg : GAConfig) (R : RNG σ) :
    CrossoverKeepsPerm cfg R := by
  intro n g p1 p2 c g' h1 h2 hok
  unfold crossover at hok
  by_cases hr : cfg.crossoverRate < (R.random g).1
  · rw [if_pos hr] at hok
    cases hok
    exact h1
  · rw [if_neg hr] at hok
    rcases hsamp : R.randomSample (R.random g).2 p1.length 2 with - | ⟨l, g2⟩
    · rw [hsamp] at hok
      cases hok
    · rw [hsamp] at hok
      match l, hok with
      | [], hok => cases hok
      | [a], hok => cases hok
      | a :: b :: x :: rest, hok => cases hok
      | [a, b], hok =>
        obtain ⟨child', hfill, hsome, hperm⟩ := oxChild_spec h1 h2 (min a b) (max a b)
        simp only [hfill, hsome, Except.ok.injEq, Prod.mk.injEq] at hok
        exact hok.1 ▸ hperm

theorem crossover_total {σ : Type} (cfg : GAConfig) {R : RNG σ} (hwf : RWF R)
    {n : Nat} (hn : 2 ≤ n) {g : σ} {p1 p2 : List Nat}
    (h1 : p1.Perm (List.range n)) (h2 : p2.Perm (List.range n)) :
    ∃ c g', crossover cfg R g p1 p2 = .ok (c, g') ∧ c.Perm (List.range n) := by
  unfold crossover
  by_cases hr : cfg.crossoverRate < (R.random g).1
  · rw [if_pos hr]
    exact ⟨p1, (R.random g).2, rfl, h1⟩
  · rw [if_neg hr]
    have hlen : p1.length = n := h1.length_eq.trans (List.length_range n)
    have hsome := hwf.sample_isSome (R.random g).2 p1.length 2 (by omega)
    rcases hsamp : R.randomSample (R.random g).2 p1.length 2 with - | ⟨l, g2⟩
    · rw [hsamp] at hsome
      cases hsome
    · obtain ⟨hl2, -, -⟩ := hwf.sample_spec _ _ _ _ _ hsamp
      obtain ⟨a, b, rfl⟩ := list_len2 hl2
      obtain ⟨child', hfill, hsome', hperm⟩ := oxChild_spec h1 h2 (min a b) (max a b)
      refine ⟨child'.reduceOption, g2, ?_, hperm⟩
      simp only [hfill, hsome']

theorem swap_head_perm :
    ∀ (t : List Nat) (m x vj : Nat), t.get? m = some vj →
      (vj :: t.set m x).Perm (x :: t) := by
  intro t
  induction t with
  | nil => intro m x vj h; cases h
  | cons y u ih =>
    intro m x vj h
    cases m with
    | zero =>
      have : y = vj := Option.some.inj h
      subst this
      exact List.Perm.swap x y u
    | succ k =>
      have ht : u.get? k = some vj := h
      have step := (ih k x vj ht).cons y
      exact ((List.Perm.swap vj y (u.set k x)).symm.trans
        (step.trans (List.Perm.swap x y u)))

theorem set_set_swap_perm :
    ∀ (l : List Nat) (i j vi vj : Nat), l.get? i = some vi → l.get? j = some vj →
      ((l.set i vj).set j vi).Perm l := by
  intro l
  induction l with
  | nil => intro i j vi vj h; cases h
  | cons x t ih =>
    intro i j vi vj hi hj
    cases i with
    | zero =>
      have hx : x = vi := Option.some.inj hi
      subst hx
      cases j with
      | zero =>
        have : x = vj := Option.some.inj hj
        subst this
        exact List.Perm.refl _
      | succ m =>
        have ht : t.get? m = some vj := hj
        show (vj :: t.set m x).Perm (x :: t)
        exact swap_head_perm t m x vj ht
    | succ k =>
      cases j with
      | zero =>
        have hx : x = vj := Option.some.inj hj
        subst hx
        have ht : t.get? k = some vi := hi
        show (vi :: t.set k x).Perm (x :: t)
        exact swap_head_perm t k x vi ht
      | succ m =>
        have hti : t.get? k = some vi := hi
        have htj : t.get? m = some vj := hj
        exact (ih k m vi vj hti htj).cons x

theorem mutate_keeps_perm {σ : Type} (cfg : GAConfig) (R : RNG σ) :
    MutateKeepsPerm cfg R := by
  intro n g p c g' hp hok
  unfold mutate at hok
  by_cases hr : cfg.mutationRate < (R.random g).1
  · rw [if_pos hr] at hok
    cases hok
    exact hp
  · rw [if_neg hr] at hok
    rcases hsamp : R.randomSample (R.random g).2 p.length 2 with - | ⟨l, g2⟩
    · rw [hsamp] at hok
      cases hok
    · rw [hsamp] at hok
      match l, hok with
      | [], hok => cases hok
      | [i], hok => cases hok
      | i :: j :: x :: rest, hok => cases hok
      | [i, j], hok =>
        rcases hgi : p.get? i with - | vi
        · simp only [hgi] at hok
          cases hok
        · rcases hgj : p.get? j with - | vj
          · simp only [hgi, hgj] at hok
            cases hok
          · simp only [hgi, hgj, Except.ok.injEq, Prod.mk.injEq] at hok
            exact hok.1 ▸ ((set_set_swap_perm p i j vi vj hgi hgj).trans hp)

theorem mutate_total {σ : Type} (cfg : GAConfig) {R : RNG σ} (hwf : RWF R)
    {n : Nat} (hn : 2 ≤ n) {g : σ} {p : List Nat} (hp : p.Perm (List.range n)) :
    ∃ c g', mutate cfg R g p = .ok (c, g') ∧ c.Perm (List.range n) := by
  unfold mutate
  by_cases hr : cfg.mutationRate < (R.random g).1
  · rw [if_pos hr]
    exact ⟨p, (R.random g).2, rfl, hp⟩
  · rw [if_neg hr]
    have hlen : p.length = n := hp.length_eq.trans (List.length_range n)
    have hsome := hwf.sample_isSome (R.random g).2 p.length 2 (by omega)
    rcases hsamp : R.randomSample (R.random g).2 p.length 2 with - | ⟨l, g2⟩
    · rw [hsamp] at hsome
      cases hsome
    · obtain ⟨hl2, -, hbound⟩ := hwf.sample_spec _ _ _ _ _ hsamp
      obtain ⟨i, j, rfl⟩ := list_len2 hl2
      have hilt : i < p.length := hbound i (by simp)
      have hjlt : j < p.length := hbound j (by simp)
      refine ⟨(p.set i (p.get ⟨j, hjlt⟩)).set j (p.get ⟨i, hilt⟩), g2, ?_, ?_⟩
      · simp only [List.get?_eq_get hilt, List.get?_eq_get hjlt]
      · exact (set_set_swap_perm p i j _ _
          (List.get?_eq_get hilt) (List.get?_eq_get hjlt)).trans hp

theorem seed_keeps_perm {σ : Type} (R : RNG σ) (hwf : RWF R) : SeedKeepsPerm R := by
  intro n k
  induction k with
  | zero => intro g h _ c hc; cases hc
  | succ m ih =>
    intro g h hperm c hc
    simp only [seedPopulation] at hc
    rcases List.mem_cons.mp hc with rfl | hc
    · exact (hwf.shuffle_perm g h).trans hperm
    · exact ih (R.shuffle g h).2 h hperm c hc

theorem tournament_mem {σ : Type} {R : RNG σ} (hwf : RWF R) {g : σ}
    {scored : List (ℚ × List Nat)} {c : List Nat} {g' : σ}
    (hok : tournament_select R g scored = .ok (c, g')) :
    ∃ f, (f, c) ∈ scored := by
  simp only [tournament_select] at hok
  rcases hsamp : R.sampleScored g
      (scored.take (max 3 (min scored.length (max 5 (scored.length / 2)))))
      (min (scored.take (max 3 (min scored.length (max 5 (scored.length / 2))))).length 3)
    with - | ⟨contenders, g2⟩ <;> simp only [hsamp] at hok
  · cases hok
  · obtain ⟨-, hsub⟩ := hwf.sampleScored_spec _ _ _ _ _ hsamp
    rcases hsort : sortScoredDesc contenders with - | ⟨c0, rest⟩ <;>
      simp only [hsort] at hok
    · cases hok
    · simp only [Except.ok.injEq, Prod.mk.injEq] at hok
      obtain ⟨rfl, -⟩ := hok
      have hc0 : c0 ∈ contenders := by
        have hm : c0 ∈ sortScoredDesc contenders := by
          rw [hsort]
          exact List.mem_cons_self c0 rest
        exact (sortScoredDesc_perm contenders).subset hm
      exact ⟨c0.1, List.mem_of_mem_take (hsub c0 hc0)⟩

theorem tournament_total {σ : Type} {R : RNG σ} (hwf : RWF R) {g : σ}
    {scored : List (ℚ × List Nat)} (hne : scored ≠ []) :
    ∃ c g', tournament_select R g scored = .ok (c, g') := by
  simp only [tournament_select]
  have hpool : scored.take (max 3 (min scored.length (max 5 (scored.length / 2)))) ≠ [] := by
    rw [Ne, List.take_eq_nil_iff]
    push_neg
    exact ⟨by omega, hne⟩
  have hsome := hwf.sampleScored_isSome g
    (scored.take (max 3 (min scored.length (max 5 (scored.length / 2)))))
    (min (scored.take (max 3 (min scored.length (max 5 (scored.length / 2))))).length 3)
    (min_le_left _ _)
  rcases hsamp : R.sampleScored g
      (scored.take (max 3 (min scored.length (max 5 (scored.length / 2)))))
      (min (scored.take (max 3 (min scored.length (max 5 (scored.length / 2))))).length 3)
    with - | ⟨contenders, g2⟩
  · rw [hsamp] at hsome
    cases hsome
  · obtain ⟨hlen, -⟩ := hwf.sampleScored_spec _ _ _ _ _ hsamp
    have hplen : 0 < (scored.take (max 3 (min scored.length (max 5 (scored.length / 2))))).length :=
      List.length_pos.mpr hpool
    have hclen : 0 < contenders.length := by
      rw [hlen]
      omega
    have hcne : contenders ≠ [] := List.length_pos.mp hclen
    rcases hsort : sortScoredDesc contenders with - | ⟨c0, rest⟩
    · exact absurd hsort (sortScoredDesc_ne_nil hcne)
    · exact ⟨c0.2, g2, by simp only [hsamp, hsort]⟩

theorem breed_keeps_perm {σ : Type} {cfg : GAConfig} {R : RNG σ} (hwf : RWF R)
    {n : Nat} {scored : List (ℚ × List Nat)}
    (hperms : ∀ p ∈ scored, (p.2 : List Nat).Perm (List.range n)) :
    ∀ (k : Nat) (g : σ) (children : List (List Nat)) (g' : σ),
      breed cfg R scored k g = .ok (children, g') →
      ∀ c ∈ children, c.Perm (List.range n) := by
  intro k
  induction k with
  | zero =>
    intro g children g' hok c hc
    cases hok
    cases hc
  | succ m ih =>
    intro g children g' hok c hc
    unfold breed at hok
    rw [except_bind_ok_iff] at hok
    obtain ⟨⟨p1, g1⟩, hp1, hok⟩ := hok
    rw [except_bind_ok_iff] at hok
    obtain ⟨⟨p2, g2⟩, hp2, hok⟩ := hok
    rw [except_bind_ok_iff] at hok
    obtain ⟨⟨ch, g3⟩, hch, hok⟩ := hok
    rw [except_bind_ok_iff] at hok
    obtain ⟨⟨ch2, g4⟩, hch2, hok⟩ := hok
    rw [except_bind_ok_iff] at hok
    obtain ⟨⟨rest, g5⟩, hrest, hok⟩ := hok
    simp only [Except.ok.injEq, Prod.mk.injEq] at hok
    obtain ⟨rfl, -⟩ := hok
    obtain ⟨f1, hf1⟩ := tournament_mem hwf hp1
    obtain ⟨f2, hf2⟩ := tournament_mem hwf hp2
    have hp1perm : p1.Perm (List.range n) := hperms (f1, p1) hf1
    have hp2perm : p2.Perm (List.range n) := hperms (f2, p2) hf2
    have hchperm : ch.Perm (List.range n) :=
      crossover_keeps_perm cfg R n g2 p1 p2 ch g3 hp1perm hp2perm hch
    have hch2perm : ch2.Perm (List.range n) :=
      mutate_keeps_perm cfg R n g3 ch ch2 g4 hchperm hch2
    rcases List.mem_cons.mp hc with rfl | hc
    · exact hch2perm
    · exact ih g4 rest g5 hrest c hc

theorem breed_total {σ : Type} (cfg : GAConfig) {R : RNG σ} (hwf : RWF R)
    {n : Nat} (hn : 2 ≤ n) {scored : List (ℚ × List Nat)} (hne : scored ≠ [])
    (hperms : ∀ p ∈ scored, (p.2 : List Nat).Perm (List.range n)) :
    ∀ (k : Nat) (g : σ), ∃ children g', breed cfg R scored k g = .ok (children, g') := by
  intro k
  induction k with
  | zero => intro g; exact ⟨[], g, rfl⟩
  | succ m ih =>
    intro g
    obtain ⟨p1, g1, hp1⟩ := tournament_total hwf hne (g := g)
    obtain ⟨f1, hf1⟩ := tournament_mem hwf hp1
    obtain ⟨p2, g2, hp2⟩ := tournament_total hwf hne (g := g1)
    obtain ⟨f2, hf2⟩ := tournament_mem hwf hp2
    obtain ⟨ch, g3, hch, hchperm⟩ :=
      crossover_total cfg hwf hn (hperms (f1, p1) hf1) (hperms (f2, p2) hf2) (g := g2)
    obtain ⟨ch2, g4, hch2, -⟩ := mutate_total cfg hwf hn hchperm (g := g3)
    obtain ⟨rest, g5, hrest⟩ := ih g4
    refine ⟨ch2 :: rest, g5, ?_⟩
    simp only [breed, hp1, hp2, hch, hch2, hrest, except_bind_ok]

theorem lowerString_empty : lowerString "" = "" := rfl

theorem lowerString_ne_empty {s : String} (h : s ≠ "") : lowerString s ≠ "" := by
  intro he
  apply h
  unfold lowerString at he
  have hdata : s.data.map Char.toLower = [] := by
    have := congrArg String.data he
    simpa using this
  have : s.data = [] := List.map_eq_nil.mp hdata
  cases s
  simp_all

theorem moodStr_of_falsy {ctx : PyDict}
    (ht : truthy ((dictGet ctx "mood").getD vnone) = false) : moodStr ctx = "" := by
  unfold moodStr
  cases hm : (dictGet ctx "mood").getD vnone with
  | vnone => rfl
  | vint m => rfl
  | vfloat q => rfl
  | vstr s =>
    rw [hm] at ht
    have hse : s = "" := by
      by_contra hne
      simp [truthy, hne] at ht
    show (if s = "" then "" else lowerString s) = ""
    rw [if_pos hse]
  | vdt d => rfl

theorem specMoodBonus_empty (difficulty : String) (p n : Nat) :
    specMoodBonus "" difficulty p n = 0 := by
  unfold specMoodBonus
  simp

theorem mood_bonus_eval {task ctx : PyDict} (hmood : ctxMoodWF ctx = true)
    (hdiff : diffOk task = true) {p n : Nat} (hpn : p < n) :
    mood_bonus task ctx p n = .ok (specMoodBonus (moodStr ctx) (diffStr task) p n) := by
  obtain ⟨ds, hds⟩ : ∃ ds, (dictGet task "difficulty").getD (vstr "medium") = vstr ds := by
    unfold diffOk at hdiff
    split at hdiff
    · rename_i s heq
      exact ⟨s, heq⟩
    · cases hdiff
  have hdstr : diffStr task = lowerString ds := by
    unfold diffStr
    rw [hds]
  have hpf : max 0 ((n : ℚ) - (p : ℚ)) = (n : ℚ) - (p : ℚ) := by
    rw [max_eq_right]
    have hc : (p : ℚ) ≤ (n : ℚ) := by exact_mod_cast le_of_lt hpn
    linarith
  by_cases ht : truthy ((dictGet ctx "mood").getD vnone) = true
  · obtain ⟨s, hm, hsE⟩ : ∃ s, (dictGet ctx "mood").getD vnone = vstr s ∧ s ≠ "" := by
      unfold ctxMoodWF at hmood
      cases hm : (dictGet ctx "mood").getD vnone with
      | vnone =>
        rw [hm] at ht
        cases ht
      | vint m =>
        rw [hm] at hmood ht
        simp [truthy] at hmood ht
        exact absurd hmood ht
      | vfloat q =>
        rw [hm] at hmood ht
        simp [truthy] at hmood ht
        exact absurd hmood ht
      | vstr s =>
        rw [hm] at ht
        refine ⟨s, rfl, ?_⟩
        intro he
        rw [he] at ht
        simp [truthy] at ht
      | vdt d =>
        rw [hm] at hmood
        simp [truthy] at hmood
    have hlowne : lowerString s ≠ "" := lowerString_ne_empty hsE
    have hms : moodStr ctx = lowerString s := by
      unfold moodStr
      rw [hm]
      show (if s = "" then "" else lowerString s) = lowerString s
      rw [if_neg hsE]
    rw [hm] at ht
    unfold mood_bonus specMoodBonus
    rw [hm, hms, hdstr]
    simp only [ht, eq_self_iff_true, if_true, ite_true, pyLower, except_bind_ok,
      if_neg hlowne, hds, hpf, ne_eq, hlowne, not_false_eq_true, true_and]
    split_ifs <;>
      first
        | rfl
        | contradiction
        | (exact congrArg _ (by ring))
  · have htf : truthy ((dictGet ctx "mood").getD vnone) = false := by
      simpa using ht
    have hms := moodStr_of_falsy htf
    unfold mood_bonus
    rw [hms, specMoodBonus_empty]
    simp [htf, pyLower, lowerString_empty, except_bind_ok]

theorem fitnessAux_spec (env : DtEnv) (tasks : List PyDict) (metrics : List BaseMetric)
    (ctx : PyDict) (n : Nat) (hmood : ctxMoodWF ctx = true)
    (hdiff : ∀ t ∈ tasks, diffOk t = true) :
    ∀ (l : List (Nat × Nat)) (ts pen mb : ℚ),
      (∀ pi ∈ l, pi.1 < n ∧ pi.2 < tasks.length ∧ pi.2 < metrics.length) →
      fitnessAux env tasks metrics ctx n l ts pen mb =
        .ok (ts - pen + mb + (l.map (specEntry env tasks metrics ctx n)).sum) := by
  intro l
  induction l with
  | nil =>
    intro ts pen mb _
    unfold fitnessAux
    exact congrArg _ (by simp)
  | cons pi rest ih =>
    intro ts pen mb hbound
    obtain ⟨hp, hti, hmi⟩ := hbound pi (List.mem_cons_self pi rest)
    rcases pi with ⟨pos, idx⟩
    have hrest : ∀ pi ∈ rest, pi.1 < n ∧ pi.2 < tasks.length ∧ pi.2 < metrics.length :=
      fun pi hpi => hbound pi (List.mem_cons_of_mem _ hpi)
    have hdT : diffOk (tasks.get ⟨idx, hti⟩) = true :=
      hdiff _ (List.get_mem tasks idx hti)
    unfold fitnessAux
    simp only [List.get?_eq_get hmi, List.get?_eq_get hti, List.map_cons, List.sum_cons]
    rcases hd : days_until_deadline env (tasks.get ⟨idx, hti⟩) with - | d <;> simp only [hd]
    · rw [mood_bonus_eval hmood hdT hp, except_bind_ok, ih _ _ _ hrest]
      exact congrArg _ (by
        unfold specEntry specDeadlineAdj
        simp only [hd, List.get?_eq_get hmi, List.get?_eq_get hti, Option.getD_some]
        ring)
    · split_ifs with h1 h2 h3
      · rw [mood_bonus_eval hmood hdT hp, except_bind_ok, ih _ _ _ hrest]
        exact congrArg _ (by
          unfold specEntry specDeadlineAdj
          simp only [hd, List.get?_eq_get hmi, List.get?_eq_get hti, Option.getD_some,
            if_pos h1]
          ring)
      · rw [mood_bonus_eval hmood hdT hp, except_bind_ok, ih _ _ _ hrest]
        exact congrArg _ (by
          unfold specEntry specDeadlineAdj
          simp only [hd, List.get?_eq_get hmi, List.get?_eq_get hti, Option.getD_some,
            if_neg h1, if_pos h2]
          ring)
      · rw [mood_bonus_eval hmood hdT hp, except_bind_ok, ih _ _ _ hrest]
        exact congrArg _ (by
          unfold specEntry specDeadlineAdj
          simp only [hd, List.get?_eq_get hmi, List.get?_eq_get hti, Option.getD_some,
            if_neg h1, if_neg h2, if_pos h3]
          ring)
      · rw [mood_bonus_eval hmood hdT hp, except_bind_ok, ih _ _ _ hrest]
        exact congrArg _ (by
          unfold specEntry specDeadlineAdj
          simp only [hd, List.get?_eq_get hmi, List.get?_eq_get hti, Option.getD_some,
            if_neg h1, if_neg h2, if_neg h3]
          ring)

theorem fitness_spec {env : DtEnv} {tasks : List PyDict} {metrics : List BaseMetric}
    {ctx : PyDict} {chromosome : List Nat}
    (hidx : ∀ i ∈ chromosome, i < tasks.length ∧ i < metrics.length)
    (hmood : ctxMoodWF ctx = true) (hdiff : ∀ t ∈ tasks, diffOk t = true) :
    fitness env chromosome tasks metrics ctx =
      .ok (specFitness env chromosome tasks metrics ctx) := by
  unfold fitness specFitness
  rw [fitnessAux_spec env tasks metrics ctx chromosome.length hmood hdiff chromosome.enum
    0 0 0 ?_]
  · exact congrArg _ (by ring)
  · intro pi hpi
    rcases pi with ⟨pos, idx⟩
    rw [List.enum_eq_enumFrom] at hpi
    obtain ⟨-, hlt, hx⟩ := List.mem_enumFrom hpi
    have hmem : idx ∈ chromosome := by
      rw [hx]
      exact List.getElem_mem _
    obtain ⟨h1, h2⟩ := hidx idx hmem
    exact ⟨by omega, h1, h2⟩

theorem fitness_isOk {env : DtEnv} {tasks : List PyDict} {metrics : List BaseMetric}
    {ctx : PyDict} {chromosome : List Nat}
    (hidx : ∀ i ∈ chromosome, i < tasks.length ∧ i < metrics.length)
    (hmood : ctxMoodWF ctx = true) (hdiff : ∀ t ∈ tasks, diffOk t = true) :
    exIsOk (fitness env chromosome tasks metrics ctx) = true := by
  rw [fitness_spec hidx hmood hdiff]
  rfl

theorem gaStep_inv {σ : Type} {cfg : GAConfig} {R : RNG σ} (hwf : RWF R)
    {env : DtEnv} {tasks : List PyDict} {metrics : List BaseMetric} {ctx : PyDict}
    {st st' : GAState σ} {genIdx : Nat}
    (hok : gaStep cfg R env tasks metrics ctx st genIdx = .ok st')
    (hinv : StInv env tasks metrics ctx st) :
    StInv env tasks metrics ctx st' ∧ st.history <+: st'.history := by
  obtain ⟨hne, hperms, hchain, hbest, hlastc⟩ := hinv
  unfold gaStep at hok
  rw [except_bind_ok_iff] at hok
  obtain ⟨scored, hscored, hok⟩ := hok
  have hmemS : ∀ p ∈ scored, p.2 ∈ st.population ∧
      fitness env p.2 tasks metrics ctx = .ok p.1 := by
    intro p hp
    obtain ⟨c, hc, hfc⟩ := exMap_mem _ hscored p hp
    obtain ⟨h2c, hfit⟩ := scoreChrom_inv hfc
    exact ⟨h2c ▸ hc, by rw [h2c]; exact hfit⟩
  have hcoverS : ∀ c ∈ st.population, ∃ f, (f, c) ∈ scored ∧
      fitness env c tasks metrics ctx = .ok f := by
    intro c hc
    obtain ⟨p, hp, hfc⟩ := exMap_cover _ hscored c hc
    obtain ⟨h2c, hfit⟩ := scoreChrom_inv hfc
    rcases p with ⟨f, c2⟩
    have h2c' : c2 = c := h2c
    subst h2c'
    exact ⟨f, hp, hfit⟩
  have hSne : scored ≠ [] := by
    intro he
    apply hne
    have hl := exMap_length _ hscored
    rw [he] at hl
    exact List.length_eq_zero.mp hl.symm
  rcases hsort : sortScoredDesc scored with - | ⟨top, tail⟩
  · exact absurd hsort (sortScoredDesc_ne_nil hSne)
  · simp only [hsort] at hok
    rw [except_bind_ok_iff] at hok
    obtain ⟨bo, hbreed, hok⟩ := hok
    rcases bo with ⟨children, g5⟩
    simp only [Except.ok.injEq] at hok
    subst hok
    have htopS : top ∈ scored := by
      refine (sortScoredDesc_perm scored).subset ?_
      rw [hsort]
      exact List.mem_cons_self _ _
    obtain ⟨htopPop, htopFit⟩ := hmemS top htopS
    have htopPerm : top.2.Perm (List.range tasks.length) := hperms top.2 htopPop
    have htopMax : ∀ p ∈ scored, p.1 ≤ top.1 := sortScoredDesc_head_ge hsort
    have hsortPerm : ∀ p ∈ top :: tail, (p.2 : List Nat).Perm (List.range tasks.length) := by
      intro p hp
      have hpS : p ∈ scored := by
        refine (sortScoredDesc_perm scored).subset ?_
        rw [hsort]
        exact hp
      exact hperms p.2 (hmemS p hpS).1
    have hchildPerm : ∀ c ∈ children, c.Perm (List.range tasks.length) :=
      breed_keeps_perm hwf hsortPerm _ _ _ _ hbreed
    have heliteSucc : ∃ m, max 2 (cfg.populationSize / 5) = m + 1 :=
      ⟨max 2 (cfg.populationSize / 5) - 1, by omega⟩
    obtain ⟨m, hm⟩ := heliteSucc
    have htopElite : top.2 ∈ ((top :: tail).take (max 2 (cfg.populationSize / 5))).map
        (fun fc => fc.2) := by
      rw [hm, List.take_succ_cons]
      exact List.mem_map_of_mem _ (List.mem_cons_self _ _)
    have helites : ∀ c ∈ ((top :: tail).take (max 2 (cfg.populationSize / 5))).map
        (fun fc => fc.2), c.Perm (List.range tasks.length) := by
      intro c hc
      obtain ⟨p, hp, rfl⟩ := List.mem_map.mp hc
      exact hsortPerm p (List.mem_of_mem_take hp)
    have hlastTop : ∀ x ∈ st.history.getLast?, x ≤ top.1 := by
      intro x hx
      have hx' : st.history.getLast? = some x := hx
      rw [hx'] at hlastc
      obtain ⟨c, hcpop, hcfit⟩ := hlastc
      obtain ⟨f, hfS, hfit2⟩ := hcoverS c hcpop
      have hfx : f = x := by
        rw [hcfit] at hfit2
        exact (Except.ok.inj hfit2).symm
      exact hfx ▸ htopMax (f, c) hfS
    refine ⟨⟨?_, ?_, ?_, ?_, ?_⟩, List.prefix_append _ _⟩
    · -- population nonempty
      intro he
      have := List.append_eq_nil.mp he
      have h1 := this.1
      rw [hm, List.take_succ_cons] at h1
      simp at h1
    · -- all permutations
      intro c hc
      rcases List.mem_append.mp hc with hc | hc
      · exact helites c hc
      · exact hchildPerm c hc
    · -- history chain
      rw [List.chain'_append]
      refine ⟨hchain, List.chain'_singleton _, ?_⟩
      intro x hx y hy
      have hy' : y = top.1 := (by simpa using hy : top.1 = y).symm
      subst hy'
      exact hlastTop x hx
    · -- best clause
      rcases hb : st.best with - | ⟨bf, bc⟩
      · simp only [hb]
        rw [hb] at hbest
        refine ⟨htopPerm, ?_, ?_⟩
        · intro x hx
          rw [hbest] at hx
          simp at hx
          simp [hx]
        · rw [hbest]
          simp
      · rw [hb] at hbest
        obtain ⟨hbcPerm, hble, hbmem⟩ := hbest
        by_cases hlt : bf < top.1
        · simp only [hb, if_pos hlt]
          refine ⟨htopPerm, ?_, ?_⟩
          · intro x hx
            rcases List.mem_append.mp hx with hx | hx
            · exact le_trans (hble x hx) (le_of_lt hlt)
            · simp at hx
              simp [hx]
          · exact List.mem_append_right _ (List.mem_singleton.mpr rfl)
        · simp only [hb, if_neg hlt]
          refine ⟨hbcPerm, ?_, List.mem_append_left _ hbmem⟩
          intro x hx
          rcases List.mem_append.mp hx with hx | hx
          · exact hble x hx
          · simp at hx
            rw [hx]
            exact le_of_not_lt hlt
    · -- last history entry realized in the new population
      rw [List.getLast?_concat]
      exact ⟨top.2, List.mem_append_left _ htopElite, htopFit⟩

theorem gaStep_total {σ : Type} {cfg : GAConfig} {R : RNG σ} (hwf : RWF R)
    {env : DtEnv} {tasks : List PyDict} {metrics : List BaseMetric} {ctx : PyDict}
    {st : GAState σ} (genIdx : Nat) (hn : 2 ≤ tasks.length)
    (hne : st.population ≠ [])
    (hperms : ∀ c ∈ st.population, c.Perm (List.range tasks.length))
    (hfit : ∀ c : List Nat, c.Perm (List.range tasks.length) →
      exIsOk (fitness env c tasks metrics ctx) = true) :
    exIsOk (gaStep cfg R env tasks metrics ctx st genIdx) = true := by
  obtain ⟨scored, hscored⟩ := exMap_total
    (fun c => do
      let f ← fitness env c tasks metrics ctx
      (.ok ((f, c) : ℚ × List Nat) : Except PyErr (ℚ × List Nat)))
    (l := st.population)
    (by
      intro c hc
      have := hfit c (hperms c hc)
      cases hf : fitness env c tasks metrics ctx with
      | ok f => simp [hf, except_bind_ok, exIsOk]
      | error e => rw [hf] at this; simp [exIsOk] at this)
  have hmemS : ∀ p ∈ scored, p.2 ∈ st.population ∧
      fitness env p.2 tasks metrics ctx = .ok p.1 := by
    intro p hp
    obtain ⟨c, hc, hfc⟩ := exMap_mem _ hscored p hp
    obtain ⟨h2c, hfit'⟩ := scoreChrom_inv hfc
    exact ⟨h2c ▸ hc, by rw [h2c]; exact hfit'⟩
  have hSne : scored ≠ [] := by
    intro he
    apply hne
    have hl := exMap_length _ hscored
    rw [he] at hl
    exact List.length_eq_zero.mp hl.symm
  rcases hsort : sortScoredDesc scored with - | ⟨top, tail⟩
  · exact absurd hsort (sortScoredDesc_ne_nil hSne)
  · have hsortPerm : ∀ p ∈ top :: tail, (p.2 : List Nat).Perm (List.range tasks.length) := by
      intro p hp
      have hpS : p ∈ scored := by
        refine (sortScoredDesc_perm scored).subset ?_
        rw [hsort]
        exact hp
      exact hperms p.2 (hmemS p hpS).1
    obtain ⟨children, g5, hbreed⟩ :=
      breed_total cfg hwf hn (List.cons_ne_nil top tail) hsortPerm
      (cfg.populationSize -
        (((top :: tail).take (max 2 (cfg.populationSize / 5))).map (fun fc => fc.2)).length)
      st.rng
    unfold gaStep
    rw [hscored, except_bind_ok]
    simp only [hsort, hbreed, except_bind_ok]
    rfl

theorem exIsOk_exists {α : Type} {x : Except PyErr α} (h : exIsOk x = true) :
    ∃ a, x = .ok a := by
  cases x with
  | ok a => exact ⟨a, rfl⟩
  | error e => simp [exIsOk] at h

theorem gaLoop_inv {σ : Type} {cfg : GAConfig} {R : RNG σ} (hwf : RWF R)
    {env : DtEnv} {tasks : List PyDict} {metrics : List BaseMetric} {ctx : PyDict} :
    ∀ (k i : Nat) (st st' : GAState σ),
      gaLoop cfg R env tasks metrics ctx k i st = .ok st' →
      StInv env tasks metrics ctx st →
      StInv env tasks metrics ctx st' ∧ st.history <+: st'.history := by
  intro k
  induction k with
  | zero =>
    intro i st st' hok hinv
    cases hok
    exact ⟨hinv, List.prefix_refl _⟩
  | succ m ih =>
    intro i st st' hok hinv
    unfold gaLoop at hok
    rw [except_bind_ok_iff] at hok
    obtain ⟨st1, hstep, hloop⟩ := hok
    obtain ⟨hinv1, hpre1⟩ := gaStep_inv hwf hstep hinv
    obtain ⟨hinv2, hpre2⟩ := ih (i + 1) st1 st' hloop hinv1
    exact ⟨hinv2, hpre1.trans hpre2⟩

theorem gaLoop_total {σ : Type} (cfg : GAConfig) {R : RNG σ} (hwf : RWF R)
    {env : DtEnv} {tasks : List PyDict} {metrics : List BaseMetric} {ctx : PyDict}
    (hn : 2 ≤ tasks.length)
    (hfit : ∀ c : List Nat, c.Perm (List.range tasks.length) →
      exIsOk (fitness env c tasks metrics ctx) = true) :
    ∀ (k i : Nat) (st : GAState σ), StInv env tasks metrics ctx st →
      ∃ st', gaLoop cfg R env tasks metrics ctx k i st = .ok st' := by
  intro k
  induction k with
  | zero => intro i st _; exact ⟨st, rfl⟩
  | succ m ih =>
    intro i st hinv
    obtain ⟨st1, hstep⟩ := exIsOk_exists (gaStep_total hwf i hn hinv.1 hinv.2.1 hfit)
    obtain ⟨hinv1, -⟩ := gaStep_inv hwf hstep hinv
    obtain ⟨st', hloop⟩ := ih (i + 1) st1 hinv1
    refine ⟨st', ?_⟩
    unfold gaLoop
    rw [hstep, except_bind_ok, hloop]

theorem st0_inv {σ : Type} {R : RNG σ} (hwf : RWF R) {env : DtEnv}
    {tasks : List PyDict} {metrics : List BaseMetric} {ctx : PyDict} {g : σ} {k : Nat} :
    StInv env tasks metrics ctx
      (⟨(seedPopulation R k g (heuristicOrder tasks.length metrics)).2,
        heuristicOrder tasks.length metrics ::
          (seedPopulation R k g (heuristicOrder tasks.length metrics)).1,
        [], none, 0⟩ : GAState σ) := by
  refine ⟨List.cons_ne_nil _ _, ?_, List.chain'_nil, rfl, trivial⟩
  intro c hc
  rcases List.mem_cons.mp hc with rfl | hc
  · exact heuristicOrder_perm tasks.length metrics
  · exact seed_keeps_perm R hwf tasks.length k g _ (heuristicOrder_perm _ _) c hc

theorem optimize_anatomy {σ : Type} {cfg : GAConfig} {R : RNG σ} (hwf : RWF R)
    {env : DtEnv} {g : σ} {tasks : List PyDict} {context : Option PyDict}
    {out : OptimizeOutput} (hne : tasks ≠ [])
    (hok : optimize cfg R env g tasks context = .ok out) :
    ∃ (metrics : List BaseMetric) (stF : GAState σ),
      exMap (fun it => metricOf cfg.pcfg env (context.getD []) it.1 it.2) tasks.enum =
        .ok metrics ∧
      gaLoop cfg R env tasks metrics (context.getD []) cfg.generations 0
        ⟨(seedPopulation R (cfg.populationSize - 1) g (heuristicOrder tasks.length metrics)).2,
         heuristicOrder tasks.length metrics ::
           (seedPopulation R (cfg.populationSize - 1) g (heuristicOrder tasks.length metrics)).1,
         [], none, 0⟩ = .ok stF ∧
      StInv env tasks metrics (context.getD []) stF ∧
      out = ⟨buildSchedule env tasks metrics
              (match stF.best with
                | some bc => bc.2
                | none => heuristicOrder tasks.length metrics),
            [("fitness", match stF.best with
                | some bc => MVal.mfloat bc.1
                | none => MVal.mninf),
             ("evaluatedGenerations", MVal.mint (stF.bestGen : Int)),
             ("fitnessHistory", MVal.mlist stF.history),
             ("prioritySummary", MVal.mdict
               [("high", countLabel metrics "high"),
                ("medium", countLabel metrics "medium"),
                ("low", countLabel metrics "low")])]⟩ := by
  have hemp : tasks.isEmpty = false := by
    cases tasks with
    | nil => exact absurd rfl hne
    | cons a t => rfl
  unfold optimize at hok
  rw [hemp] at hok
  simp only [Bool.false_eq_true, if_false] at hok
  rw [except_bind_ok_iff] at hok
  obtain ⟨metrics, hmetrics, hok⟩ := hok
  rw [except_bind_ok_iff] at hok
  obtain ⟨stF, hloop, hok⟩ := hok
  simp only [Except.ok.injEq] at hok
  obtain ⟨hinvF, -⟩ := gaLoop_inv hwf cfg.generations 0 _ stF hloop (st0_inv hwf)
  exact ⟨metrics, stF, hmetrics, hloop, hinvF, hok.symm⟩

theorem gaStep_top {σ : Type} {cfg : GAConfig} {R : RNG σ}
    {env : DtEnv} {tasks : List PyDict} {metrics : List BaseMetric} {ctx : PyDict}
    {st st' : GAState σ} {genIdx : Nat}
    (hok : gaStep cfg R env tasks metrics ctx st genIdx = .ok st') :
    ∃ t, st'.history = st.history ++ [t] ∧
      ∀ c ∈ st.population, ∀ fc, fitness env c tasks metrics ctx = .ok fc → fc ≤ t := by
  unfold gaStep at hok
  rw [except_bind_ok_iff] at hok
  obtain ⟨scored, hscored, hok⟩ := hok
  rcases hsort : sortScoredDesc scored with - | ⟨top, tail⟩
  · rw [hsort] at hok
    cases hok
  · simp only [hsort] at hok
    rw [except_bind_ok_iff] at hok
    obtain ⟨bo, hbreed, hok⟩ := hok
    simp only [Except.ok.injEq] at hok
    subst hok
    refine ⟨top.1, rfl, ?_⟩
    intro c hc fc hfc
    obtain ⟨p, hp, hfp⟩ := exMap_cover _ hscored c hc
    obtain ⟨h2c, hfit⟩ := scoreChrom_inv hfp
    have : fc = p.1 := by
      rw [hfc] at hfit
      exact Except.ok.inj hfit
    rw [this]
    exact sortScoredDesc_head_ge hsort p hp

/-- C1: on every run on which `optimize` returns, the schedule is the
entry-wise image of a permutation of the task indices (same length, no
duplicates, no omissions), and the seeding, order-crossover and mutation
operators all produce permutations of the index set `{0..N-1}` from
permutation inputs. -/
theorem c1_permutation {σ : Type} (cfg : GAConfig) (R : RNG σ) (env : DtEnv) (g : σ)
    (tasks : List PyDict) (context : Option PyDict) (out : OptimizeOutput)
    (hwf : RWF R) (hok : optimize cfg R env g tasks context = .ok out) :
    IsPermSchedule cfg env tasks context out ∧
    CrossoverKeepsPerm cfg R ∧ MutateKeepsPerm cfg R ∧ SeedKeepsPerm R := by
  refine ⟨?_, crossover_keeps_perm cfg R, mutate_keeps_perm cfg R, seed_keeps_perm R hwf⟩
  by_cases hne : tasks = []
  · subst hne
    have hout : (⟨[], actualEmptyMetadata⟩ : OptimizeOutput) = out := Except.ok.inj hok
    refine ⟨[], [], rfl, by simp, ?_, ?_⟩
    · rw [← hout]
      rfl
    · rw [← hout]
  · obtain ⟨metrics, stF, hmetrics, hloop, hinvF, hout⟩ := optimize_anatomy hwf hne hok
    have hbperm : (match stF.best with
        | some bc => bc.2
        | none => heuristicOrder tasks.length metrics).Perm (List.range tasks.length) := by
      rcases hb : stF.best with - | bc
      · exact heuristicOrder_perm _ _
      · have hbest := hinvF.2.2.2.1
        rw [hb] at hbest
        exact hbest.1
    refine ⟨metrics, _, hmetrics, hbperm, by rw [hout], ?_⟩
    rw [hout]
    show (buildSchedule env tasks metrics _).length = tasks.length
    unfold buildSchedule
    rw [List.length_map, List.enum_length, hbperm.length_eq, List.length_range]

/-- C1 witness: the permutation property instantiated on a concrete
two-task run. -/
theorem c1_permutation_witness :
    IsPermSchedule cfgW envW tasksW none outW ∧
    CrossoverKeepsPerm cfgW TrivR ∧ MutateKeepsPerm cfgW TrivR ∧ SeedKeepsPerm TrivR :=
  c1_permutation cfgW TrivR envW () tasksW none outW trivR_wf (by with_unfolding_all rfl)

/-- C6: within one run (the fitness function is a fixed pure function of
the chromosome), the per-generation top fitness values recorded in
`metadata.fitnessHistory` never decrease from one generation to the next
(elitism carries the top `max(2, populationSize/5)` chromosomes over
unchanged), and the final `metadata.fitness` — the remembered best-ever
fitness — dominates every entry of the history. -/
theorem c6_monotone_history {σ : Type} (cfg : GAConfig) (R : RNG σ) (env : DtEnv)
    (g : σ) (tasks : List PyDict) (context : Option PyDict) (out : OptimizeOutput)
    (hist : List ℚ) (f : ℚ)
    (hwf : RWF R) (hok : optimize cfg R env g tasks context = .ok out)
    (hh : metaGet out.metadata "fitnessHistory" = some (.mlist hist))
    (hf : metaGet out.metadata "fitness" = some (.mfloat f)) :
    hist.Chain' (· ≤ ·) ∧ ∀ x ∈ hist, x ≤ f := by
  by_cases hne : tasks = []
  · subst hne
    have hout : (⟨[], actualEmptyMetadata⟩ : OptimizeOutput) = out := Except.ok.inj hok
    rw [← hout] at hh
    simp [metaGet, actualEmptyMetadata, List.find?] at hh
  · obtain ⟨metrics, stF, hmetrics, hloop, hinvF, hout⟩ := optimize_anatomy hwf hne hok
    rw [hout] at hh hf
    have hh2 : MVal.mlist stF.history = MVal.mlist hist := Option.some.inj hh
    have hf2 : (match stF.best with
        | some bc => MVal.mfloat bc.1
        | none => MVal.mninf) = MVal.mfloat f := Option.some.inj hf
    rcases hb : stF.best with - | bc
    · rw [hb] at hf2
      cases hf2
    · rw [hb] at hf2
      have hfeq : f = bc.1 := (MVal.mfloat.inj hf2).symm
      have hhe : hist = stF.history := (MVal.mlist.inj hh2).symm
      have hbest := hinvF.2.2.2.1
      rw [hb] at hbest
      subst hfeq
      subst hhe
      exact ⟨hinvF.2.2.1, hbest.2.1⟩

/-- C6 witness: the concrete two-task run has a non-decreasing fitness
history dominated by the reported best fitness. -/
theorem c6_monotone_history_witness :
    List.Chain' (· ≤ ·) [(61 : ℚ)/10, 61/10] ∧
      ∀ x ∈ [(61 : ℚ)/10, 61/10], x ≤ 61/10 :=
  c6_monotone_history cfgW TrivR envW () tasksW none outW [(61 : ℚ)/10, 61/10] (61/10)
    trivR_wf (by with_unfolding_all rfl) (by with_unfolding_all rfl)
    (by with_unfolding_all rfl)

/-- C10: for every non-empty batch on which `optimize` returns (with at
least one generation configured, as in the default 60), the reported
`metadata.fitness` is at least the fitness of the heuristic baseline
ordering, because that ordering seeds the initial population, is
evaluated in generation one, and the elitist best never regresses. -/
theorem c10_beats_heuristic {σ : Type} (cfg : GAConfig) (R : RNG σ) (env : DtEnv)
    (g : σ) (tasks : List PyDict) (context : Option PyDict) (out : OptimizeOutput)
    (metrics : List BaseMetric) (f fh : ℚ)
    (hwf : RWF R) (hne : tasks ≠ []) (hgen : 1 ≤ cfg.generations)
    (hok : optimize cfg R env g tasks context = .ok out)
    (hm : exMap (fun it => metricOf cfg.pcfg env (context.getD []) it.1 it.2) tasks.enum =
      .ok metrics)
    (hf : metaGet out.metadata "fitness" = some (.mfloat f))
    (hfh : fitness env (heuristicOrder tasks.length metrics) tasks metrics
      (context.getD []) = .ok fh) :
    fh ≤ f := by
  obtain ⟨metrics', stF, hmetrics, hloop, hinvF, hout⟩ := optimize_anatomy hwf hne hok
  have hme : metrics = metrics' := by
    rw [hm] at hmetrics
    exact Except.ok.inj hmetrics
  subst hme
  obtain ⟨m, hmgen⟩ : ∃ m, cfg.generations = m + 1 := ⟨cfg.generations - 1, by omega⟩
  rw [hmgen] at hloop
  unfold gaLoop at hloop
  rw [except_bind_ok_iff] at hloop
  obtain ⟨st1, hstep, hloop'⟩ := hloop
  obtain ⟨t, hhist1, htle⟩ := gaStep_top hstep
  have hfht : fh ≤ t :=
    htle (heuristicOrder tasks.length metrics) (List.mem_cons_self _ _) fh hfh
  obtain ⟨hinv1, -⟩ := gaStep_inv hwf hstep (st0_inv hwf)
  obtain ⟨-, hpre⟩ := gaLoop_inv hwf m 1 st1 stF hloop' hinv1
  have htmem : t ∈ stF.history := by
    apply hpre.sublist.subset
    rw [hhist1]
    simp
  rw [hout] at hf
  have hf2 : (match stF.best with
      | some bc => MVal.mfloat bc.1
      | none => MVal.mninf) = MVal.mfloat f := Option.some.inj hf
  rcases hb : stF.best with - | bc
  · rw [hb] at hf2
    cases hf2
  · rw [hb] at hf2
    have hfeq : f = bc.1 := (MVal.mfloat.inj hf2).symm
    have hbest := hinvF.2.2.2.1
    rw [hb] at hbest
    subst hfeq
    exact le_trans hfht (hbest.2.1 t htmem)

/-- C10 witness: on the concrete two-task run the reported fitness 6.1
is at least the heuristic baseline's fitness 6.1. -/
theorem c10_beats_heuristic_witness : ((61 : ℚ)/10) ≤ 61/10 :=
  c10_beats_heuristic cfgW TrivR envW () tasksW none outW
    [⟨0, "medium", 14, 2⟩, ⟨1, "low", -3, 1⟩] (61/10) (61/10)
    trivR_wf (by decide) (by decide) (by with_unfolding_all rfl)
    (by with_unfolding_all rfl) (by with_unfolding_all rfl) (by with_unfolding_all rfl)

theorem dictGet_cons_eq {a : String × PyVal} {d : PyDict} {k : String} (h : a.1 = k) :
    dictGet (a :: d) k = some a.2 := by
  unfold dictGet
  rw [List.find?_cons_of_pos]
  · rfl
  · simpa using h

theorem dictGet_cons_ne {a : String × PyVal} {d : PyDict} {k : String} (h : ¬ a.1 = k) :
    dictGet (a :: d) k = dictGet d k := by
  unfold dictGet
  rw [List.find?_cons_of_neg]
  simpa using h

theorem dictGet_singleton_ne {k1 k : String} (v : PyVal) (h : ¬ k1 = k) :
    dictGet [(k1, v)] k = none := by
  rw [dictGet_cons_ne h]
  rfl

theorem dictGet_append_none {d d2 : PyDict} {k : String} (h1 : dictGet d k = none)
    (h2 : dictGet d2 k = none) : dictGet (d ++ d2) k = none := by
  rw [dictGet_append, h1, h2]
  rfl

theorem dictGet_append_rnone {d d2 : PyDict} {k : String} (h2 : dictGet d2 k = none) :
    dictGet (d ++ d2) k = dictGet d k := by
  rw [dictGet_append, h2, Option.or_none]

theorem dictGet_map_set {d : PyDict} {k : String} (v : PyVal)
    (h : List.any d (fun kv => kv.1 = k) = true) :
    dictGet (List.map (fun kv => if kv.1 = k then (k, v) else kv) d) k = some v := by
  induction d with
  | nil => simp at h
  | cons a t ih =>
    by_cases hk : a.1 = k
    · simp only [List.map_cons, if_pos hk]
      exact dictGet_cons_eq rfl
    · have h' : List.any t (fun kv => kv.1 = k) = true := by
        simp only [List.any_cons, Bool.or_eq_true] at h
        rcases h with h | h
        · exact absurd (by simpa using h) hk
        · exact h
      simp only [List.map_cons, if_neg hk]
      rw [dictGet_cons_ne hk]
      exact ih h'

theorem dictGet_map_set_ne {d : PyDict} {k k2 : String} (v : PyVal) (h : ¬ k = k2) :
    dictGet (List.map (fun kv => if kv.1 = k then (k, v) else kv) d) k2 = dictGet d k2 := by
  induction d with
  | nil => rfl
  | cons a t ih =>
    by_cases hk : a.1 = k
    · simp only [List.map_cons, if_pos hk]
      rw [dictGet_cons_ne h, dictGet_cons_ne (fun he => h (hk.symm.trans he))]
      exact ih
    · simp only [List.map_cons, if_neg hk]
      by_cases ha2 : a.1 = k2
      · rw [dictGet_cons_eq ha2, dictGet_cons_eq ha2]
      · rw [dictGet_cons_ne ha2, dictGet_cons_ne ha2]
        exact ih

theorem dictGet_set_self (d : PyDict) (k : String) (v : PyVal) :
    dictGet (dictSet d k v) k = some v := by
  unfold dictSet
  split
  · rename_i hany
    exact dictGet_map_set v hany
  · rename_i hany
    have hnone : dictGet d k = none := by
      rw [dictGet_eq_none]
      intro kv hkv hk
      exact hany (List.any_eq_true.mpr ⟨kv, hkv, by simpa using hk⟩)
    rw [dictGet_append, hnone, Option.none_or]
    exact dictGet_cons_eq rfl

theorem dictGet_set_ne (d : PyDict) {k : String} (v : PyVal) {k2 : String} (h : ¬ k = k2) :
    dictGet (dictSet d k v) k2 = dictGet d k2 := by
  unfold dictSet
  split
  · exact dictGet_map_set_ne v h
  · rw [dictGet_append_rnone (dictGet_singleton_ne v h)]

theorem pyLower_mood_total {ctx : PyDict} (hm : ctxMoodWF ctx = true) :
    ∃ s, pyLower (if truthy ((dictGet ctx "mood").getD vnone) then
      (dictGet ctx "mood").getD vnone else vstr "") = .ok s := by
  by_cases ht : truthy ((dictGet ctx "mood").getD vnone) = true
  · unfold ctxMoodWF at hm
    cases hv : (dictGet ctx "mood").getD vnone with
    | vstr s =>
      rw [if_pos (show truthy (vstr s) = true from hv ▸ ht)]
      exact ⟨lowerString s, rfl⟩
    | vnone =>
      rw [hv] at ht
      cases ht
    | vint m =>
      rw [hv] at hm ht
      simp [truthy] at hm ht
      exact absurd hm ht
    | vfloat q =>
      rw [hv] at hm ht
      simp [truthy] at hm ht
      exact absurd hm ht
    | vdt d =>
      rw [hv] at hm
      simp [truthy] at hm
  · rw [if_neg ht]
    exact ⟨"", rfl⟩

theorem fuzzy_total {cfg : PrioritizerCfg} (score : ℚ) {task ctx : PyDict}
    (hm : ctxMoodWF ctx = true) (hd : diffOk task = true) :
    ∃ q, apply_fuzzy_logic cfg score task ctx = .ok q := by
  obtain ⟨ds, hds⟩ : ∃ ds, (dictGet task "difficulty").getD (vstr "medium") = vstr ds := by
    unfold diffOk at hd
    split at hd
    · rename_i s' heq
      exact ⟨s', heq⟩
    · cases hd
  obtain ⟨s, hs⟩ := pyLower_mood_total hm
  unfold apply_fuzzy_logic
  split
  · exact ⟨score, rfl⟩
  · simp only [hs, except_bind_ok, hds]
    exact ⟨_, rfl⟩

theorem calc_total {cfg : PrioritizerCfg} {env : DtEnv} {task ctx : PyDict}
    (hw : taskWF task = true) (hm : ctxMoodWF ctx = true) :
    ∃ q, calculate_priority_score cfg env task ctx = .ok q := by
  unfold taskWF at hw
  rw [Bool.and_eq_true] at hw
  obtain ⟨hu, hd⟩ := hw
  obtain ⟨u, hu'⟩ := exIsOk_exists hu
  unfold calculate_priority_score
  rw [hu', except_bind_ok]
  exact fuzzy_total _ hm hd

theorem heuristic_total {cfg : PrioritizerCfg} {env : DtEnv} {task ctx : PyDict}
    (hw : taskWF task = true) (hm : ctxMoodWF ctx = true) :
    exIsOk (heuristic_priority cfg env task ctx) = true := by
  obtain ⟨q, hq⟩ := calc_total hw hm
  unfold heuristic_priority
  rw [hq, except_bind_ok]
  rfl

theorem mapPriority_weight (cfg : PrioritizerCfg) (score : ℚ) :
    ∃ w, priorityWeight (map_score_to_priority cfg score) = .ok w := by
  unfold map_score_to_priority
  split
  · exact ⟨3, rfl⟩
  · split
    · exact ⟨2, rfl⟩
    · exact ⟨1, rfl⟩

theorem metricOf_total {cfg : PrioritizerCfg} {env : DtEnv} {ctx : PyDict} {idx : Nat}
    {task : PyDict} (hw : taskWF task = true) (hm : ctxMoodWF ctx = true) :
    exIsOk (metricOf cfg env ctx idx task) = true := by
  obtain ⟨q, hq⟩ := calc_total hw hm
  obtain ⟨w, hw'⟩ := mapPriority_weight cfg q
  have hmo : metricOf cfg env ctx idx task = .ok ⟨idx, map_score_to_priority cfg q, q, w⟩ := by
    unfold metricOf heuristic_priority
    rw [except_bind_ok_iff]
    refine ⟨(map_score_to_priority cfg q, q), ?_, ?_⟩
    · rw [hq, except_bind_ok]
    · rw [except_bind_ok_iff]
      exact ⟨w, hw', rfl⟩
  rw [hmo]
  rfl

theorem fitness_total_of_perm {env : DtEnv} {tasks : List PyDict}
    {metrics : List BaseMetric} {ctx : PyDict}
    (hmood : ctxMoodWF ctx = true) (hdiff : ∀ t ∈ tasks, diffOk t = true)
    (hlen : metrics.length = tasks.length) :
    ∀ c : List Nat, c.Perm (List.range tasks.length) →
      exIsOk (fitness env c tasks metrics ctx) = true := by
  intro c hc
  apply fitness_isOk ?_ hmood hdiff
  intro i hi
  have hr : i ∈ List.range tasks.length := hc.subset hi
  rw [List.mem_range] at hr
  exact ⟨hr, by omega⟩

theorem optimize_total {σ : Type} {cfg : GAConfig} {R : RNG σ} (hwf : RWF R)
    {env : DtEnv} {g : σ} {tasks : List PyDict} {context : Option PyDict}
    (hn1 : tasks.length ≠ 1)
    (hw : ∀ t ∈ tasks, taskWF t = true)
    (hm : ctxMoodWF (context.getD []) = true) :
    ∃ out, optimize cfg R env g tasks context = .ok out := by
  by_cases hne : tasks.isEmpty
  · refine ⟨⟨[], actualEmptyMetadata⟩, ?_⟩
    unfold optimize
    rw [if_pos hne]
    rfl
  · have hlen2 : 2 ≤ tasks.length := by
      have h0 : tasks.length ≠ 0 := by
        intro h0
        exact hne (List.isEmpty_iff_length_eq_zero.mpr h0)
      omega
    have htot : ∀ it ∈ tasks.enum,
        exIsOk (metricOf cfg.pcfg env (context.getD []) it.1 it.2) = true := by
      intro it hit
      rw [List.enum_eq_enumFrom] at hit
      obtain ⟨-, hlt, hx⟩ := List.mem_enumFrom hit
      have hmem : it.2 ∈ tasks := by
        rw [hx]
        exact List.getElem_mem _
      exact metricOf_total (hw it.2 hmem) hm
    obtain ⟨metrics, hmetrics⟩ := exMap_total
      (fun (it : Nat × PyDict) => metricOf cfg.pcfg env (context.getD []) it.1 it.2) htot
    have hlenEq : metrics.length = tasks.length := by
      rw [exMap_length _ hmetrics, List.enum_length]
    have hdiff : ∀ t ∈ tasks, diffOk t = true := by
      intro t ht
      have hh := hw t ht
      unfold taskWF at hh
      rw [Bool.and_eq_true] at hh
      exact hh.2
    obtain ⟨stF, hloop⟩ := gaLoop_total cfg hwf hlen2
      (fitness_total_of_perm hm hdiff hlenEq :
        ∀ c : List Nat, c.Perm (List.range tasks.length) →
          exIsOk (fitness env c tasks metrics (context.getD [])) = true)
      cfg.generations 0
      ⟨(seedPopulation R (cfg.populationSize - 1) g (heuristicOrder tasks.length metrics)).2,
       heuristicOrder tasks.length metrics ::
         (seedPopulation R (cfg.populationSize - 1) g (heuristicOrder tasks.length metrics)).1,
       [], none, 0⟩ (st0_inv hwf)
    apply Exists.intro
    unfold optimize
    rw [if_neg (by simp [hne])]
    simp only [hmetrics, except_bind_ok, hloop]
    rfl

theorem fuzzy_congr {cfg : PrioritizerCfg} {score : ℚ} {t1 t2 ctx : PyDict}
    (h : dictGet t1 "difficulty" = dictGet t2 "difficulty") :
    apply_fuzzy_logic cfg score t1 ctx = apply_fuzzy_logic cfg score t2 ctx := by
  unfold apply_fuzzy_logic
  rw [h]

theorem difficulty_defaults : DifficultyDefaults := by
  intro s h1 h2 h3
  unfold difficultyMapGet
  split
  · rename_i heq
    injection heq with heq
    exact absurd heq h1
  · rename_i heq
    injection heq with heq
    exact absurd heq h2
  · rename_i heq
    injection heq with heq
    exact absurd heq h3
  · rfl

theorem deadline_neutral (cfg : PrioritizerCfg) (env : DtEnv) : DeadlineNeutral cfg env := by
  intro task ctx hpd
  have hd2 := dictGet_set_self task "deadline" vnone
  have hu2 : dictGet (dictSet task "deadline" vnone) "urgency" =
      dictGet task "urgency" := dictGet_set_ne task vnone (by decide)
  have hdi2 : dictGet (dictSet task "deadline" vnone) "difficulty" =
      dictGet task "difficulty" := dictGet_set_ne task vnone (by decide)
  unfold calculate_priority_score
  simp only [hd2, hu2, hdi2, Option.getD_some, fuzzy_congr hdi2, hpd, truthy, ite_self,
    Bool.false_eq_true, if_false]

theorem buildEntry_clean {env : DtEnv} {task : PyDict} (h : cleanTask task = true)
    (m : BaseMetric) (rank : Nat) :
    buildEntry env task m rank = task ++
      [("heuristicPriority", vstr m.label),
       ("heuristicScore", vfloat (round2 m.score)),
       ("gaRank", vint (rank : Int))] := by
  simp only [cleanTask, Bool.and_eq_true, Option.isNone_iff_eq_none] at h
  obtain ⟨⟨⟨⟨⟨⟨e1, e2⟩, e3⟩, e4⟩, n5⟩, n6⟩, n7⟩ := h
  have s1 : dictSet task "heuristicPriority" (vstr m.label) =
      task ++ [("heuristicPriority", vstr m.label)] := dictSet_of_absent e1 _
  have g2 : dictGet (task ++ [("heuristicPriority", vstr m.label)]) "heuristicScore" = none :=
    dictGet_append_none e2 (dictGet_singleton_ne _ (by decide))
  have s2 : dictSet (task ++ [("heuristicPriority", vstr m.label)]) "heuristicScore"
      (vfloat (round2 m.score)) =
      task ++ [("heuristicPriority", vstr m.label)] ++
        [("heuristicScore", vfloat (round2 m.score))] := dictSet_of_absent g2 _
  have g3 : dictGet (task ++ [("heuristicPriority", vstr m.label)] ++
      [("heuristicScore", vfloat (round2 m.score))]) "gaRank" = none :=
    dictGet_append_none (dictGet_append_none e3 (dictGet_singleton_ne _ (by decide)))
      (dictGet_singleton_ne _ (by decide))
  have s3 : dictSet (task ++ [("heuristicPriority", vstr m.label)] ++
      [("heuristicScore", vfloat (round2 m.score))]) "gaRank" (vint (rank : Int)) =
      task ++ [("heuristicPriority", vstr m.label)] ++
        [("heuristicScore", vfloat (round2 m.score))] ++
        [("gaRank", vint (rank : Int))] := dictSet_of_absent g3 _
  have g4 : dictGet (task ++ [("heuristicPriority", vstr m.label)] ++
      [("heuristicScore", vfloat (round2 m.score))] ++
      [("gaRank", vint (rank : Int))]) "_id" = none :=
    dictGet_append_none (dictGet_append_none (dictGet_append_none e4
      (dictGet_singleton_ne _ (by decide))) (dictGet_singleton_ne _ (by decide)))
      (dictGet_singleton_ne _ (by decide))
  have gfield : ∀ k : String, k ≠ "heuristicPriority" → k ≠ "heuristicScore" →
      k ≠ "gaRank" →
      dictGet (task ++ [("heuristicPriority", vstr m.label)] ++
        [("heuristicScore", vfloat (round2 m.score))] ++
        [("gaRank", vint (rank : Int))]) k = dictGet task k := by
    intro k hk1 hk2 hk3
    rw [dictGet_append_rnone (dictGet_singleton_ne _ (fun he => hk3 he.symm)),
      dictGet_append_rnone (dictGet_singleton_ne _ (fun he => hk2 he.symm)),
      dictGet_append_rnone (dictGet_singleton_ne _ (fun he => hk1 he.symm))]
  have hdt : ∀ k : String, k ≠ "heuristicPriority" → k ≠ "heuristicScore" →
      k ≠ "gaRank" → notDt (dictGet task k) = true →
      dtConvert env (task ++ [("heuristicPriority", vstr m.label)] ++
        [("heuristicScore", vfloat (round2 m.score))] ++
        [("gaRank", vint (rank : Int))]) k =
      task ++ [("heuristicPriority", vstr m.label)] ++
        [("heuristicScore", vfloat (round2 m.score))] ++
        [("gaRank", vint (rank : Int))] := by
    intro k hk1 hk2 hk3 hn
    unfold dtConvert
    rw [gfield k hk1 hk2 hk3]
    cases hv : dictGet task k with
    | none => rfl
    | some v =>
      cases v with
      | vnone => rfl
      | vint n => rfl
      | vfloat q => rfl
      | vstr s => rfl
      | vdt d =>
        rw [hv] at hn
        simp [notDt] at hn
  simp only [buildEntry, s1, s2, s3]
  rw [if_neg (show ¬ ((dictGet (task ++ [("heuristicPriority", vstr m.label)] ++
    [("heuristicScore", vfloat (round2 m.score))] ++
    [("gaRank", vint (rank : Int))]) "_id").isSome = true) from by rw [g4]; simp)]
  rw [hdt "deadline" (by decide) (by decide) (by decide) n5,
    hdt "createdAt" (by decide) (by decide) (by decide) n6,
    hdt "updatedAt" (by decide) (by decide) (by decide) n7]
  simp [List.append_assoc]

/-- C5: with the heuristic weights and scores fixed in the metrics list,
for every chromosome whose indices are in range, a mood value that is a
string or falsy, and string difficulty values, `_fitness` returns exactly
the spec's closed formula: the sum over positions `p` of
`weight·(N−p) + 0.1·score`, plus the deadline adjustment (`−5·|d|` when
overdue — so `d = −3` contributes exactly `−15` — `+2` within two days,
`−1/2` beyond a week, else `0`) and the mood bonus (`+0.5·(N−p)` for
focused/okay/energetic moods on hard/medium tasks, `−(p+1)` for
sad/very_sad/tired moods on hard tasks, else `0`). -/
theorem c5_fitness_formula {env : DtEnv} {tasks : List PyDict} {metrics : List BaseMetric}
    {ctx : PyDict} {chromosome : List Nat}
    (hidx : ∀ i ∈ chromosome, i < tasks.length ∧ i < metrics.length)
    (hmood : ctxMoodWF ctx = true) (hdiff : ∀ t ∈ tasks, diffOk t = true) :
    fitness env chromosome tasks metrics ctx =
      .ok (specFitness env chromosome tasks metrics ctx) ∧
    specDeadlineAdj (some (-3)) = -15 :=
  ⟨fitness_spec hidx hmood hdiff, by norm_num [specDeadlineAdj]⟩

/-- C5 witness: the formula instantiated on a concrete two-task batch,
chromosome `[1, 0]`, an `okay` mood and the batch's metrics. -/
theorem c5_fitness_formula_witness :
    (fitness envW [1, 0] tasksW [⟨0, "medium", 14, 2⟩, ⟨1, "low", -3, 1⟩]
        [("mood", vstr "okay")] =
      .ok (specFitness envW [1, 0] tasksW [⟨0, "medium", 14, 2⟩, ⟨1, "low", -3, 1⟩]
        [("mood", vstr "okay")])) ∧
    specDeadlineAdj (some (-3)) = -15 :=
  c5_fitness_formula (by decide) (by decide) (by decide)

/-- C8: the random source is injectable (it is a parameter of the model,
standing for a seeded `random` module), and two invocations of `optimize`
with identical configuration, random source and state, clock environment,
task list and context return identical outputs — in particular identical
`schedule` and `metadata.fitnessHistory`. -/
theorem c8_determinism {σ : Type} (cfg cfg' : GAConfig) (R R' : RNG σ)
    (env env' : DtEnv) (g g' : σ) (tasks tasks' : List PyDict)
    (context context' : Option PyDict) (out out' : OptimizeOutput)
    (hcfg : cfg = cfg') (hR : R = R') (henv : env = env') (hg : g = g')
    (ht : tasks = tasks') (hctx : context = context')
    (hok : optimize cfg R env g tasks context = .ok out)
    (hok' : optimize cfg' R' env' g' tasks' context' = .ok out') :
    out = out' ∧ out.schedule = out'.schedule ∧
      metaGet out.metadata "fitnessHistory" = metaGet out'.metadata "fitnessHistory" := by
  subst hcfg hR henv hg ht hctx
  rw [hok] at hok'
  obtain rfl := Except.ok.inj hok'
  exact ⟨rfl, rfl, rfl⟩

/-- C8 witness: determinism instantiated on the concrete two-task run. -/
theorem c8_determinism_witness :
    outW = outW ∧ outW.schedule = outW.schedule ∧
      metaGet outW.metadata "fitnessHistory" = metaGet outW.metadata "fitnessHistory" :=
  c8_determinism cfgW cfgW TrivR TrivR envW envW () () tasksW tasksW none none outW outW
    rfl rfl rfl rfl rfl rfl (by with_unfolding_all rfl) (by with_unfolding_all rfl)

/-- C3 (amended): the original unconditional claim is refuted by
`c3_counterexample` (a non-numeric urgency string raises an uncaught
`ValueError` out of `int(...)`). For every batch whose tasks have an
int-convertible urgency and string difficulty values, whose context mood
is a string or falsy, and whose size is not exactly one (a size-one batch
can raise `ValueError` in `random.sample`), the scorer returns normally
on every task and `optimize` returns normally; moreover an unparseable
deadline is scored exactly like a missing one (the neutral 7-day
fallback) and every unknown difficulty string maps to the medium
default `2`. -/
theorem c3_defensive_recovery {σ : Type} (cfg : GAConfig) (R : RNG σ) (env : DtEnv)
    (g : σ) (tasks : List PyDict) (context : Option PyDict)
    (hwf : RWF R) (hn1 : tasks.length ≠ 1)
    (hw : ∀ t ∈ tasks, taskWF t = true)
    (hm : ctxMoodWF (context.getD []) = true) :
    ScorerTotal cfg.pcfg env tasks (context.getD []) ∧
    (∃ out, optimize cfg R env g tasks context = .ok out) ∧
    DifficultyDefaults ∧ DeadlineNeutral cfg.pcfg env := by
  refine ⟨?_, optimize_total hwf hn1 hw hm, difficulty_defaults,
    deadline_neutral cfg.pcfg env⟩
  intro t ht
  exact heuristic_total (hw t ht) hm

/-- C3 witness: the recovery properties instantiated on the concrete
two-task batch. -/
theorem c3_defensive_recovery_witness :
    ScorerTotal cfgW.pcfg envW tasksW ((none : Option PyDict).getD []) ∧
    (∃ out, optimize cfgW TrivR envW () tasksW none = .ok out) ∧
    DifficultyDefaults ∧ DeadlineNeutral cfgW.pcfg envW :=
  c3_defensive_recovery cfgW TrivR envW () tasksW none trivR_wf (by decide)
    (by decide) (by decide)

/-- C9 counterexample: on a task carrying a Mongo-style `_id` field the
schedule entry is not the original record with fields appended — the
`_id` key is dropped and replaced by a stringified `id` key. -/
theorem c9_counterexample :
    dictGet taskId1 "_id" = some (vstr "x1") ∧
    dictGet (outId.schedule.headD []) "_id" = none ∧
    dictGet (outId.schedule.headD []) "id" = some (vstr "x1") ∧
    ¬ ∃ extra, outId.schedule.headD [] = taskId1 ++ extra := by
  refine ⟨by with_unfolding_all rfl, by with_unfolding_all rfl,
    by with_unfolding_all rfl, ?_⟩
  rintro ⟨extra, he⟩
  have h0 : (outId.schedule.headD []).head? = some ("difficulty", vstr "easy") := by
    with_unfolding_all rfl
  rw [he] at h0
  simp [taskId1] at h0

/-- C9 (amended): the embedded `optimize` is a pure function of its
arguments (the Python code copies each task with `dict(...)` before
annotating), and for every run on a batch of tasks that carry none of
the derived keys, no `_id`, and no `datetime`-valued timestamp fields,
every schedule entry is exactly the original task record with only the
three derived fields `heuristicPriority`, `heuristicScore` (rounded to
two decimals) and `gaRank` appended at the end, in chromosome order.
The original claim's unconditional form is refuted by
`c9_counterexample` (`_id` is renamed, not preserved). -/
theorem c9_append_only {σ : Type} (cfg : GAConfig) (R : RNG σ) (env : DtEnv) (g : σ)
    (tasks : List PyDict) (context : Option PyDict) (out : OptimizeOutput)
    (hwf : RWF R) (hok : optimize cfg R env g tasks context = .ok out)
    (hclean : ∀ t ∈ tasks, cleanTask t = true) :
    SchedAppendOnly cfg env tasks context out := by
  by_cases hne : tasks = []
  · subst hne
    have hout : (⟨[], actualEmptyMetadata⟩ : OptimizeOutput) = out := Except.ok.inj hok
    refine ⟨[], [], rfl, by simp, ?_⟩
    rw [← hout]
    rfl
  · obtain ⟨metrics, stF, hmetrics, hloop, hinvF, hout⟩ := optimize_anatomy hwf hne hok
    have hbperm : (match stF.best with
        | some bc => bc.2
        | none => heuristicOrder tasks.length metrics).Perm (List.range tasks.length) := by
      rcases hb : stF.best with - | bc
      · exact heuristicOrder_perm _ _
      · have hbest := hinvF.2.2.2.1
        rw [hb] at hbest
        exact hbest.1
    refine ⟨metrics, _, hmetrics, hbperm, ?_⟩
    rw [hout]
    show buildSchedule env tasks metrics _ = _
    unfold buildSchedule
    apply List.map_congr_left
    intro ri hri
    have hmem : ri.2 ∈ (match stF.best with
        | some bc => bc.2
        | none => heuristicOrder tasks.length metrics) := by
      rw [List.enum_eq_enumFrom] at hri
      obtain ⟨-, hlt, hx⟩ := List.mem_enumFrom hri
      rw [hx]
      exact List.getElem_mem _
    have hrange : ri.2 < tasks.length := by
      have := hbperm.subset hmem
      rwa [List.mem_range] at this
    obtain ⟨t, htg⟩ : ∃ t, tasks.get? ri.2 = some t :=
      ⟨tasks.get ⟨ri.2, hrange⟩, List.get?_eq_get hrange⟩
    have htm : t ∈ tasks := List.get?_mem htg
    have hct : cleanTask ((tasks.get? ri.2).getD []) = true := by
      rw [htg]
      exact hclean t htm
    exact buildEntry_clean hct _ _

/-- C9 witness: the append-only schedule shape on the concrete clean
two-task run. -/
theorem c9_append_only_witness : SchedAppendOnly cfgW envW tasksW none outW :=
  c9_append_only cfgW TrivR envW () tasksW none outW trivR_wf
    (by with_unfolding_all rfl) (by decide)
